import Mathlib

/-!
# CLUE numeric formatting core (`clue/internal/numfmt.hpp`)

A shallow embedding of `clue::fmt::details` and the properties of its digit
counters, digit extractors, integer renderers, fixed-notation length bound and
format-string composer.

Conventions of the embedding

* Values of the C++ integer types are natural numbers (unsigned types) or
  integers (the argument of `uabs` and `render`), together with the bit width
  and signedness of the type.
* `size_t` is the 64-bit unsigned type; the one place where a `size_t`
  subtraction can wrap (`n - 1` in the digit extractors) wraps modulo
  `2 ^ 64`.
* Character storage is raw memory: a function from addresses (offsets from the
  start of the storage) to character codes.  A pointer is an address.
* `CLUE_ASSERT` aborts the call when its condition is false; a call that
  aborts yields `none`.
* The negation `-x` of `uabs` is evaluated in the signed type: at the least value
  of a type as wide as `int` it overflows and the program has no defined
  behaviour (`negation_overflows`). `neg_signed` and `uabs` give the value of
  two's complement arithmetic; `render_call` and `render_layout_call`, the
  renders with the construction of their helper, have the outcome `undefined`
  there.
* A finite `double` is its sign bit and its magnitude, a rational number; the
  floating-point operations of `maxfmtlength_fixed` below `9e18` (comparison,
  `std::ceil`, conversion to `uint64_t`) are exact on it.
-/

namespace clue

/-! ## Data model -/

/-- Raw character storage, addressed by offset; the contents are character codes. -/
abbrev Buf := Nat → Nat

/-- The store `buf[i] = v`. -/
def Buf.write (buf : Buf) (i v : Nat) : Buf := fun j => if j = i then v else buf j

/-- The characters `buf[p], ..., buf[p + n - 1]`. -/
def Buf.slice (buf : Buf) (p n : Nat) : List Nat := (List.range n).map (fun i => buf (p + i))

/-- The modulus of `size_t`. -/
def SIZE_MOD : Nat := 2 ^ 64

/-- The `size_t` subtraction `a - b` of two values of the type (both below
`SIZE_MOD`): the difference, modulo `SIZE_MOD` when `a < b`. -/
def size_sub (a b : Nat) : Nat := if b ≤ a then a - b else a + SIZE_MOD - b

/-- The conversion `(charT)(v)` to the 8-bit character type. -/
def to_charT (v : Nat) : Nat := v % 256

/-- Code of the character `0`. -/
def CH_0 : Nat := 48
/-- Code of the character `A`. -/
def CH_A : Nat := 65
/-- Code of the character `a`. -/
def CH_a : Nat := 97
/-- Code of the character `-`. -/
def CH_MINUS : Nat := 45
/-- Code of the character `+`. -/
def CH_PLUS : Nat := 43
/-- Code of the blank. -/
def CH_SPACE : Nat := 32
/-- Code of the terminator `\0`. -/
def CH_NUL : Nat := 0

/-- An integer type: its width in bits and its signedness. -/
structure IntType where
  bits : Nat
  signed : Bool
deriving DecidableEq, Repr

/-- The values an integer type represents. -/
def IntType.holds (T : IntType) (x : Int) : Prop :=
  if T.signed then -(2 : Int) ^ (T.bits - 1) ≤ x ∧ x < (2 : Int) ^ (T.bits - 1)
  else 0 ≤ x ∧ x < (2 : Int) ^ T.bits

instance (T : IntType) (x : Int) : Decidable (T.holds x) := by
  unfold IntType.holds; exact inferInstance

/-! ## Convert arbitrary integer to unsigned abs -/

/-- Negation `-x` in an `N`-bit signed type, two's complement (modulo `2 ^ N`). Where the
negation overflows (`negation_overflows`) the program has no defined behaviour and this
value is that of two's complement arithmetic only. -/
def neg_signed (N : Nat) (x : Int) : Int :=
  (-x + (2 : Int) ^ (N - 1)) % (2 : Int) ^ N - (2 : Int) ^ (N - 1)

/-- The conversion `static_cast<U>(v)` to the `N`-bit unsigned type. -/
def static_cast_unsigned (N : Nat) (v : Int) : Nat := (v % (2 : Int) ^ N).toNat

/-- `uabs_helper<T, true>::get`: `static_cast<U>(x < 0 ? -x : x)`. -/
def uabs_helper_signed_get (N : Nat) (x : Int) : Nat :=
  static_cast_unsigned N (if x < 0 then neg_signed N x else x)

/-- `uabs_helper<T, false>::get`: `x` itself. -/
def uabs_helper_unsigned_get (x : Nat) : Nat := x

/-- `uabs`: dispatch on the signedness of `T`. -/
def uabs (T : IntType) (x : Int) : Nat :=
  if T.signed then uabs_helper_signed_get T.bits x else uabs_helper_unsigned_get x.toNat

/-! ## Number of digits in non-negative integers -/

/-- The loop of `ndigits_dec`: `while (x >= 10000) { x /= 10000; c += 4; }`. -/
def ndigits_dec_loop (x c : Nat) : Nat × Nat :=
  if 10000 ≤ x then ndigits_dec_loop (x / 10000) (c + 4) else (x, c)
termination_by x
decreasing_by omega

/-- `ndigits_dec`. -/
def ndigits_dec (x : Nat) : Nat :=
  let r := ndigits_dec_loop x 0
  if r.1 < 10 then r.2 + 1
  else if r.1 < 100 then r.2 + 2
  else if r.1 < 1000 then r.2 + 3
  else r.2 + 4

/-- The loop of `ndigits_oct`: `while (x > 7) { x >>= 3; c ++; }`. -/
def ndigits_oct_loop (x c : Nat) : Nat :=
  if 7 < x then ndigits_oct_loop (x >>> 3) (c + 1) else c
termination_by x
decreasing_by rw [Nat.shiftRight_eq_div_pow]; omega

/-- `ndigits_oct`. -/
def ndigits_oct (x : Nat) : Nat := ndigits_oct_loop x 1

/-- The loop of `ndigits_hex`: `while (x > 15) { x >>= 4; c ++; }`. -/
def ndigits_hex_loop (x c : Nat) : Nat :=
  if 15 < x then ndigits_hex_loop (x >>> 4) (c + 1) else c
termination_by x
decreasing_by rw [Nat.shiftRight_eq_div_pow]; omega

/-- `ndigits_hex`. -/
def ndigits_hex (x : Nat) : Nat := ndigits_hex_loop x 1

/-! ## Extract integer digits -/

/-- Modelled from the spec: the macro `CLUE_ASSERT` is defined outside the sources
(the spec: validation failures are raised through the assertion mechanism, which
aborts). The call goes on when the condition holds and aborts otherwise. -/
def CLUE_ASSERT (c : Prop) [Decidable c] : Option Unit := if c then some () else none

/-- The variables of a digit-extraction loop: the remaining value `x`, the cursor
`m` and the storage. -/
structure ExtractState where
  x : Nat
  m : Nat
  buf : Buf

/-- The loop of `extract_digits_dec`, by recursion on the cursor `m`:
`while (m > 0 && x > 9) { q = x / 10; r = x - q * 10; buf[m--] = '0' + r; x = q; }`,
`buf` being the address `p`. -/
def extract_digits_dec_loop (p : Nat) : Nat → Nat → Buf → ExtractState
  | 0, x, buf => ⟨x, 0, buf⟩
  | m + 1, x, buf =>
    if 9 < x then
      let q := x / 10
      let r := x - q * 10
      extract_digits_dec_loop p m q (buf.write (p + (m + 1)) (to_charT (CH_0 + r)))
    else ⟨x, m + 1, buf⟩

/-- `extract_digits_dec(x, buf + p, n)`. -/
def extract_digits_dec (x : Nat) (buf : Buf) (p n : Nat) : Option Buf := do
  let m := size_sub n 1
  let s := extract_digits_dec_loop p m x buf
  CLUE_ASSERT (s.x < 10)
  pure (s.buf.write (p + s.m) (to_charT (CH_0 + s.x)))

/-- The loop of `extract_digits_oct`:
`while (m > 0 && x > 7) { buf[m--] = '0' + (x & 7); x >>= 3; }`. -/
def extract_digits_oct_loop (p : Nat) : Nat → Nat → Buf → ExtractState
  | 0, x, buf => ⟨x, 0, buf⟩
  | m + 1, x, buf =>
    if 7 < x then
      extract_digits_oct_loop p m (x >>> 3)
        (buf.write (p + (m + 1)) (to_charT (CH_0 + (x &&& 7))))
    else ⟨x, m + 1, buf⟩

/-- `extract_digits_oct(x, buf + p, n)`. -/
def extract_digits_oct (x : Nat) (buf : Buf) (p n : Nat) : Option Buf := do
  let m := size_sub n 1
  let s := extract_digits_oct_loop p m x buf
  CLUE_ASSERT (s.x < 8)
  pure (s.buf.write (p + s.m) (to_charT (CH_0 + s.x)))

/-- The loop of `extract_digits_hex`, `a` being the first letter of the case:
`while (m > 0 && x > 15) { r = x & 15; buf[m--] = r < 10 ? '0' + r : a + (r - 10); x >>= 4; }`. -/
def extract_digits_hex_loop (a p : Nat) : Nat → Nat → Buf → ExtractState
  | 0, x, buf => ⟨x, 0, buf⟩
  | m + 1, x, buf =>
    if 15 < x then
      let r := x &&& 15
      extract_digits_hex_loop a p m (x >>> 4)
        (buf.write (p + (m + 1)) (if r < 10 then to_charT (CH_0 + r) else to_charT (a + (r - 10))))
    else ⟨x, m + 1, buf⟩

/-- `extract_digits_hex(x, upper, buf + p, n)`. -/
def extract_digits_hex (x : Nat) (upper : Bool) (buf : Buf) (p n : Nat) : Option Buf := do
  let m := size_sub n 1
  let a := if upper then CH_A else CH_a
  let s := extract_digits_hex_loop a p m x buf
  CLUE_ASSERT (s.x < 16)
  pure (s.buf.write (p + s.m)
    (if s.x < 10 then to_charT (CH_0 + s.x) else to_charT (a + (s.x - 10))))

/-! ## Render integers -/

/-- The template parameter `N` of `int_render_helper`: the base 10, 8 or 16. -/
inductive Radix where
  | dec
  | oct
  | hex
deriving DecidableEq, Repr

/-- The number the template parameter stands for. -/
def Radix.toNat : Radix → Nat
  | .dec => 10
  | .oct => 8
  | .hex => 16

/-- `int_render_helper<T, N>`: the magnitude `ax`, its digit count `nd` and, for
base 16, the letter case. -/
structure int_render_helper where
  N : Radix
  ax : Nat
  nd : Nat
  upper : Bool

/-- The constructor of `int_render_helper<T, 10>`. -/
def int_render_helper.dec (T : IntType) (x : Int) : int_render_helper :=
  { N := .dec, ax := uabs T x, nd := ndigits_dec (uabs T x), upper := false }

/-- The constructor of `int_render_helper<T, 8>`. -/
def int_render_helper.oct (T : IntType) (x : Int) : int_render_helper :=
  { N := .oct, ax := uabs T x, nd := ndigits_oct (uabs T x), upper := false }

/-- The constructor of `int_render_helper<T, 16>`. -/
def int_render_helper.hex (T : IntType) (x : Int) (upper : Bool) : int_render_helper :=
  { N := .hex, ax := uabs T x, nd := ndigits_hex (uabs T x), upper := upper }

/-- The constructor of the helper of the given base. -/
def int_render_helper.make (N : Radix) (T : IntType) (x : Int) (upper : Bool) :
    int_render_helper :=
  match N with
  | .dec => int_render_helper.dec T x
  | .oct => int_render_helper.oct T x
  | .hex => int_render_helper.hex T x upper

/-- `put_digits(buf + p)`: extract the digits at the cursor, return the storage and
the advanced cursor. -/
def int_render_helper.put_digits (h : int_render_helper) (buf : Buf) (p : Nat) :
    Option (Buf × Nat) :=
  match h.N with
  | .dec => (extract_digits_dec h.ax buf p h.nd).map (fun b => (b, p + h.nd))
  | .oct => (extract_digits_oct h.ax buf p h.nd).map (fun b => (b, p + h.nd))
  | .hex => (extract_digits_hex h.ax h.upper buf p h.nd).map (fun b => (b, p + h.nd))

/-- Modelled from the spec: the helper `details::fill_chars` is declared outside the
sources (the spec: fill characters are inserted, `width - natural_length` of them).
It stores `n` copies of the character `c` from the cursor `p` on and returns the
advanced cursor. -/
def fill_chars (buf : Buf) (p n c : Nat) : Buf × Nat :=
  (fun j => if p ≤ j ∧ j < p + n then c else buf j, p + n)

/-- The sign character of both renders: `x < 0 ? '-' : (showpos_ ? '+' : '\0')`. -/
def sign_char (x : Int) (showpos : Bool) : Nat :=
  if x < 0 then CH_MINUS else (if showpos then CH_PLUS else CH_NUL)

/-- The statement `if (sign) *(buf++) = (charT)(sign);` at the cursor `p`. -/
def put_sign (sign : Nat) (buf : Buf) (p : Nat) : Buf × Nat :=
  if sign ≠ 0 then (buf.write p (to_charT sign), p + 1) else (buf, p)

/-- The compact `render(x, h, showpos_, buf, buf_len)`: the value returned and the
storage, `buf` being the address 0. -/
def render (x : Int) (h : int_render_helper) (showpos : Bool) (buf : Buf) (buf_len : Nat) :
    Option (Nat × Buf) := do
  let sign := sign_char x showpos
  let flen := if sign ≠ 0 then h.nd + 1 else h.nd
  CLUE_ASSERT (buf_len > flen)
  let s := put_sign sign buf 0
  let d ← h.put_digits s.1 s.2
  pure (flen, d.1.write d.2 (to_charT CH_NUL))

/-- The layout `render(x, h, showpos_, padzeros_, width, left, buf, buf_len)`. -/
def render_layout (x : Int) (h : int_render_helper) (showpos padzeros : Bool) (width : Nat)
    (left : Bool) (buf : Buf) (buf_len : Nat) : Option (Nat × Buf) := do
  let sign := sign_char x showpos
  let flen := if sign ≠ 0 then h.nd + 1 else h.nd
  CLUE_ASSERT (buf_len > flen)
  if width > flen then
    let plen := width - flen
    if left then
      let s := put_sign sign buf 0
      let d ← h.put_digits s.1 s.2
      let f := fill_chars d.1 d.2 plen CH_SPACE
      pure (width, f.1.write f.2 (to_charT CH_NUL))
    else if padzeros then
      let s := put_sign sign buf 0
      let f := fill_chars s.1 s.2 plen CH_0
      let d ← h.put_digits f.1 f.2
      pure (width, d.1.write d.2 (to_charT CH_NUL))
    else
      let f := fill_chars buf 0 plen CH_SPACE
      let s := put_sign sign f.1 f.2
      let d ← h.put_digits s.1 s.2
      pure (width, d.1.write d.2 (to_charT CH_NUL))
  else
    let s := put_sign sign buf 0
    let d ← h.put_digits s.1 s.2
    pure (flen, d.1.write d.2 (to_charT CH_NUL))

/-! ## Undefined behaviour of the signed negation -/

/-- The width of `int`, in bits: an operand of a narrower type is promoted to `int`
before the negation `-x`. -/
def INT_BITS : Nat := 32

/-- The negation `-x` of `uabs_helper<T, true>::get` overflows: `T` is signed and at least
as wide as `int`, so that `-x` is evaluated in `T`, and `x` is the least value of `T`. The
behaviour of the program is then undefined; `neg_signed` gives the value of two's
complement arithmetic there, which the program does not guarantee. -/
def negation_overflows (T : IntType) (x : Int) : Prop :=
  T.signed = true ∧ INT_BITS ≤ T.bits ∧ x = -(2 : Int) ^ (T.bits - 1)

instance (T : IntType) (x : Int) : Decidable (negation_overflows T x) := by
  unfold negation_overflows; exact inferInstance

/-- The outcome of a call: undefined behaviour, a failed assertion, or a result. -/
inductive Outcome (α : Type) where
  | undefined : Outcome α
  | aborted : Outcome α
  | returned : α → Outcome α

/-- The outcome of a call free of undefined behaviour. -/
def Outcome.ofOption {α : Type} : Option α → Outcome α
  | none => Outcome.aborted
  | some a => Outcome.returned a

/-- The compact render as it is called, the construction of the helper included:
`render(x, int_render_helper<T, N>(x), showpos_, buf, buf_len)`. The constructor runs
`uabs(x)`: there is no defined outcome when the negation overflows. -/
def render_call (N : Radix) (T : IntType) (x : Int) (upper showpos : Bool) (buf : Buf)
    (buf_len : Nat) : Outcome (Nat × Buf) :=
  if negation_overflows T x then Outcome.undefined
  else Outcome.ofOption (render x (int_render_helper.make N T x upper) showpos buf buf_len)

/-- The layout render as it is called, the construction of the helper included:
`render(x, int_render_helper<T, N>(x), showpos_, padzeros_, width, left, buf, buf_len)`. -/
def render_layout_call (N : Radix) (T : IntType) (x : Int) (upper showpos padzeros : Bool)
    (width : Nat) (left : Bool) (buf : Buf) (buf_len : Nat) : Outcome (Nat × Buf) :=
  if negation_overflows T x then Outcome.undefined
  else Outcome.ofOption
    (render_layout x (int_render_helper.make N T x upper) showpos padzeros width left
      buf buf_len)

/-! ## Floating point traits -/

/-- A finite value of `double`: its sign bit and its magnitude, a non-negative rational
(every finite `double` is a rational number; the sign bit tells `-0.0` from `0.0`). -/
structure Double where
  signbit : Bool
  abs : ℚ

/-- `maxfmtlength_fixed(x, precision, plus_sign)` at a finite `x`. The bounds `9.5` and
`9e18` are values of `double`, and the comparisons, `std::ceil` and the conversion to
`uint64_t` are exact; `floor_log10 ax` stands for `std::floor(std::log10(ax))`, the
library call of the last branch. -/
def maxfmtlength_fixed (floor_log10 : ℚ → Nat) (x : Double) (precision : Nat)
    (plus_sign : Bool) : Nat :=
  let ax := x.abs
  let n :=
    if ax < 19 / 2 then 1
    else if ax < 9000000000000000000 then
      let rint := ⌈ax⌉.toNat % 2 ^ 64
      ndigits_dec rint
    else floor_log10 ax + 2
  let n := if precision > 0 then n + (precision + 1) else n
  let n := if x.signbit = true ∨ plus_sign = true then n + 1 else n
  n

/-- `maxfmtlength_sci(x, precision, plus_sign)`. -/
def maxfmtlength_sci (x : Double) (precision : Nat) (plus_sign : Bool) : Nat :=
  let n := 6
  let n := if precision > 0 then n + (precision + 1) else n
  let n := if x.signbit = true ∨ plus_sign = true then n + 1 else n
  n

/-- Code of the character `%`. -/
def CH_PERCENT : Nat := 37
/-- Code of the character `.`. -/
def CH_DOT : Nat := 46

/-- The block `// write sign` of `float_cfmt_impl`, on the storage and the cursor `p`:
`if (_showpos) *p++ = '+';`. -/
def cfmt_write_sign (s : Buf × Nat) (showpos : Bool) : Buf × Nat :=
  if showpos then (s.1.write s.2 CH_PLUS, s.2 + 1) else s

/-- The block `// write width`: for `width > 0` the flag `-` or `0`, then the digits of
the width, `w_nd` of them. -/
def cfmt_write_width (s : Buf × Nat) (width : Nat) (left padzeros : Bool) :
    Option (Buf × Nat) :=
  if width > 0 then do
    let f := if left then (s.1.write s.2 CH_MINUS, s.2 + 1)
      else if padzeros then (s.1.write s.2 CH_0, s.2 + 1) else s
    let w_nd := if width < 10 then 1 else (if width < 100 then 2 else 3)
    let d ← extract_digits_dec width f.1 f.2 w_nd
    pure (d, f.2 + w_nd)
  else pure s

/-- The block `// write precision`: the point, then the digits of the precision, `p_nd`
of them. -/
def cfmt_write_precision (s : Buf × Nat) (prec : Nat) : Option (Buf × Nat) := do
  let t := (s.1.write s.2 CH_DOT, s.2 + 1)
  let p_nd := if prec < 10 then 1 else 2
  let d ← extract_digits_dec prec t.1 t.2 p_nd
  pure (d, t.2 + p_nd)

/-- The statements of `float_cfmt_impl` up to its `return`, `buf` being the address `b`:
the cursor `p`, which stands on the terminator, and the storage. -/
def float_cfmt_impl_body (buf : Buf) (b fsym width prec : Nat) (left showpos padzeros : Bool) :
    Option (Nat × Buf) := do
  let s0 := (buf.write b CH_PERCENT, b + 1)
  let s1 := cfmt_write_sign s0 showpos
  let s2 ← cfmt_write_width s1 width left padzeros
  let s3 ← cfmt_write_precision s2 prec
  -- write symbol
  let s4 := (s3.1.write s3.2 fsym, s3.2 + 1)
  pure (s4.2, s4.1.write s4.2 CH_NUL)

/-- `float_cfmt_impl(buf, fsym, width, prec, _left, _showpos, _padzeros)`: the pointer
returned, which is `buf`, and the storage. -/
def float_cfmt_impl (buf : Buf) (b fsym width prec : Nat) (left showpos padzeros : Bool) :
    Option (Nat × Buf) :=
  (float_cfmt_impl_body buf b fsym width prec left showpos padzeros).map (fun r => (b, r.2))

/-- The number of characters `float_cfmt_impl` stores, the terminator included: the
positions from `buf` to the final cursor. -/
def float_cfmt_impl_count (buf : Buf) (b fsym width prec : Nat) (left showpos padzeros : Bool) :
    Option Nat :=
  (float_cfmt_impl_body buf b fsym width prec left showpos padzeros).map (fun r => r.1 + 1 - b)

/-- The string of character codes of a text. -/
def codes (s : String) : List Nat := s.toList.map Char.toNat

/-! ## The common shape of the extraction loops -/

/-- The three extraction loops as one: base `b`, the character `ch d` stored for the
digit value `d`. Each loop of the source is an instance (see `extract_digits_dec_loop_eq`,
`extract_digits_oct_loop_eq`, `extract_digits_hex_loop_eq`). -/
def extract_loop (b : Nat) (ch : Nat → Nat) (p : Nat) : Nat → Nat → Buf → ExtractState
  | 0, x, buf => ⟨x, 0, buf⟩
  | m + 1, x, buf =>
    if b ≤ x then extract_loop b ch p m (x / b) (buf.write (p + (m + 1)) (ch (x % b)))
    else ⟨x, m + 1, buf⟩

/-- The character the decimal and octal extractors store for a digit value. -/
def dec_digit (d : Nat) : Nat := to_charT (CH_0 + d)

/-- The character the hexadecimal extractor stores for a digit value, `a` being the
first letter. -/
def hex_digit (a d : Nat) : Nat := if d < 10 then to_charT (CH_0 + d) else to_charT (a + (d - 10))

/-! ## Reference notions: the standard textual representation -/

/-- The character of one digit value: `0`-`9`, then `A`-`F` or `a`-`f`. -/
def digit_char (upper : Bool) (d : Nat) : Nat :=
  if d < 10 then 48 + d else (if upper then 65 else 97) + (d - 10)

/-- The standard representation of `x` in base `b`: most-significant digit first,
no leading zeros, and the single digit `0` for zero. -/
def textual_representation (b : Nat) (upper : Bool) (x : Nat) : List Nat :=
  if x = 0 then [48] else (Nat.digits b x).reverse.map (digit_char upper)

/-- The value of a digit character, if it is one. -/
def char_value (c : Nat) : Option Nat :=
  if 48 ≤ c ∧ c ≤ 57 then some (c - 48)
  else if 65 ≤ c ∧ c ≤ 70 then some (c - 55)
  else if 97 ≤ c ∧ c ≤ 102 then some (c - 87)
  else none

/-- One step of reading a number: append the digit `c` to the value read so far. -/
def parse_step (b : Nat) (acc : Option Nat) (c : Nat) : Option Nat :=
  match acc, char_value c with
  | some a, some v => if v < b then some (a * b + v) else none
  | _, _ => none

/-- Reading a string of digits in base `b`; `none` when the string is empty or
holds a character that is not a digit of the base. -/
def parse_digits (b : Nat) (s : List Nat) : Option Nat :=
  if s = [] then none else s.foldl (parse_step b) (some 0)

/-- The character is in the alphabet of base 8. -/
def is_oct_char (c : Nat) : Prop := 48 ≤ c ∧ c ≤ 55

/-- The character is in the alphabet of base 16 of the given letter case. -/
def is_hex_char (upper : Bool) (c : Nat) : Prop :=
  (48 ≤ c ∧ c ≤ 57) ∨ (if upper then 65 ≤ c ∧ c ≤ 70 else 97 ≤ c ∧ c ≤ 102)

/-! ## Reference notions: the rendered text -/

/-- The digit counter of the base `N`. -/
def digit_count (N : Radix) (ax : Nat) : Nat :=
  match N with
  | .dec => ndigits_dec ax
  | .oct => ndigits_oct ax
  | .hex => ndigits_hex ax

/-- The sign the renders put first: `-` for a negative value, `+` for a non-negative one
when the show-positive flag is set, nothing otherwise. -/
def sign_text (x : Int) (showpos : Bool) : List Nat :=
  if x < 0 then [45] else if showpos then [43] else []

/-- The digits of the magnitude of `x` in the base `N`. -/
def digits_text (N : Radix) (upper : Bool) (x : Int) : List Nat :=
  textual_representation N.toNat upper x.natAbs

/-- The text of the compact render: the sign, then the digits. -/
def compact_text (N : Radix) (upper : Bool) (x : Int) (showpos : Bool) : List Nat :=
  sign_text x showpos ++ digits_text N upper x

/-- The natural length: the digit count, and one more when there is a sign. -/
def natural_length (N : Radix) (upper : Bool) (x : Int) (showpos : Bool) : Nat :=
  (digits_text N upper x).length + (if x < 0 ∨ showpos = true then 1 else 0)

/-- The text of the layout render, the three layouts of a width above the natural length:
left-justified (sign, digits, blanks), zero-padded (sign, zeros, digits), right-justified
(blanks, sign, digits); the compact text for any other width. -/
def layout_text (N : Radix) (upper : Bool) (x : Int) (showpos padzeros : Bool) (width : Nat)
    (left : Bool) : List Nat :=
  if natural_length N upper x showpos < width then
    if left then
      sign_text x showpos ++ digits_text N upper x
        ++ List.replicate (width - natural_length N upper x showpos) 32
    else if padzeros then
      sign_text x showpos ++ List.replicate (width - natural_length N upper x showpos) 48
        ++ digits_text N upper x
    else
      List.replicate (width - natural_length N upper x showpos) 32
        ++ sign_text x showpos ++ digits_text N upper x
  else compact_text N upper x showpos

/-- The specifier the composer is to write: `%`, `+` if show-positive, then for a width
above 0 the flag (`-` if left-justified, else `0` if zero-padded, else none) and the
decimal digits of the width, then `.`, the decimal digits of the precision, the symbol. -/
def cfmt_text (fsym width prec : Nat) (left showpos padzeros : Bool) : List Nat :=
  [37] ++ (if showpos then [43] else [])
    ++ (if width > 0 then
          (if left then [45] else if padzeros then [48] else [])
            ++ textual_representation 10 false width
        else [])
    ++ [46] ++ textual_representation 10 false prec ++ [fsym]

/-- Rounding of a non-negative rational to the nearest integer, ties to the even one. -/
def round_half_even (y : ℚ) : Nat :=
  if y - ⌊y⌋ < 1 / 2 then ⌊y⌋.toNat
  else if 1 / 2 < y - ⌊y⌋ then ⌊y⌋.toNat + 1
  else if ⌊y⌋.toNat % 2 = 0 then ⌊y⌋.toNat else ⌊y⌋.toNat + 1

/-- The standard fixed-notation rendering of `x` rounded to `p` fractional digits: the
sign (`-` with the sign bit, else `+` on demand), the integer digits of the rounded
value, and for `p > 0` the point and the `p` fractional digits. -/
def fixed_text (x : Double) (p : Nat) (plus_sign : Bool) : List Nat :=
  (if x.signbit = true then [45] else if plus_sign = true then [43] else [])
    ++ textual_representation 10 false (round_half_even (x.abs * 10 ^ p) / 10 ^ p)
    ++ (if p > 0 then
          46 :: (List.range p).map
            (fun i => 48 + round_half_even (x.abs * 10 ^ p) / 10 ^ (p - 1 - i) % 10)
        else [])

/-- A step of a render that starts at the cursor `p` in `buf` and ends at the cursor `q`
in `out` emits `text`: the text stands in `[p, q)` and nothing else has changed. -/
def Emits (buf : Buf) (p : Nat) (out : Buf) (q : Nat) (text : List Nat) : Prop :=
  q = p + text.length ∧ out.slice p text.length = text ∧
    ∀ j, (j < p ∨ q ≤ j) → out j = buf j

/-! ## The standard representation, digit by digit -/

theorem digit_char_zero (u : Bool) : digit_char u 0 = 48 := by
  simp [digit_char]

theorem textual_representation_small (b : Nat) (u : Bool) (x : Nat) (hx : x < b) :
    textual_representation b u x = [digit_char u x] := by
  unfold textual_representation
  by_cases h0 : x = 0
  · simp [h0, digit_char_zero]
  · have hpos : 0 < x := Nat.pos_of_ne_zero h0
    simp [h0, Nat.digits_of_lt b x h0 hx]

theorem textual_representation_step (b : Nat) (u : Bool) (x : Nat) (hb : 1 < b) (hx : b ≤ x) :
    textual_representation b u x
      = textual_representation b u (x / b) ++ [digit_char u (x % b)] := by
  have hx0 : x ≠ 0 := by omega
  have hq : x / b ≠ 0 := by
    have : 0 < x / b := Nat.div_pos hx (by omega)
    omega
  unfold textual_representation
  rw [if_neg hx0, if_neg hq, Nat.digits_def' hb (Nat.pos_of_ne_zero hx0)]
  simp

theorem textual_representation_length_small (b : Nat) (u : Bool) (x : Nat) (hx : x < b) :
    (textual_representation b u x).length = 1 := by
  rw [textual_representation_small b u x hx]; rfl

theorem textual_representation_length_step (b : Nat) (u : Bool) (x : Nat) (hb : 1 < b)
    (hx : b ≤ x) :
    (textual_representation b u x).length = (textual_representation b u (x / b)).length + 1 := by
  rw [textual_representation_step b u x hb hx]; simp

theorem textual_representation_length_pos (b : Nat) (u : Bool) (x : Nat) :
    1 ≤ (textual_representation b u x).length := by
  unfold textual_representation
  by_cases h0 : x = 0
  · simp [h0]
  · rw [if_neg h0]
    have : Nat.digits b x ≠ [] := by
      intro h
      exact h0 (Nat.digits_eq_nil_iff_eq_zero.mp h)
    have := List.length_pos.mpr this
    simpa using this

/-! ## The digit counters -/

theorem dec_length_block (u : Bool) (x : Nat) (hx : 10000 ≤ x) :
    (textual_representation 10 u x).length
      = (textual_representation 10 u (x / 10000)).length + 4 := by
  have e1 := textual_representation_length_step 10 u x (by omega) (by omega)
  have e2 := textual_representation_length_step 10 u (x / 10) (by omega) (by omega)
  have e3 := textual_representation_length_step 10 u (x / 10 / 10) (by omega) (by omega)
  have e4 := textual_representation_length_step 10 u (x / 10 / 10 / 10) (by omega) (by omega)
  have e5 : x / 10 / 10 / 10 / 10 = x / 10000 := by omega
  rw [e5] at e4
  omega

theorem dec_length_tail (u : Bool) (x : Nat) (hx : x < 10000) :
    (textual_representation 10 u x).length
      = if x < 10 then 1 else if x < 100 then 2 else if x < 1000 then 3 else 4 := by
  by_cases h1 : x < 10
  · rw [if_pos h1]; exact textual_representation_length_small 10 u x h1
  · have e1 := textual_representation_length_step 10 u x (by omega) (by omega)
    by_cases h2 : x < 100
    · rw [if_neg h1, if_pos h2, e1,
        textual_representation_length_small 10 u (x / 10) (by omega)]
    · have e2 := textual_representation_length_step 10 u (x / 10) (by omega) (by omega)
      by_cases h3 : x < 1000
      · rw [if_neg h1, if_neg h2, if_pos h3, e1, e2,
          textual_representation_length_small 10 u (x / 10 / 10) (by omega)]
      · have e3 := textual_representation_length_step 10 u (x / 10 / 10) (by omega) (by omega)
        rw [if_neg h1, if_neg h2, if_neg h3, e1, e2, e3,
          textual_representation_length_small 10 u (x / 10 / 10 / 10) (by omega)]

theorem ndigits_dec_loop_spec (u : Bool) (x c : Nat) :
    (ndigits_dec_loop x c).1 < 10000 ∧
      (textual_representation 10 u (ndigits_dec_loop x c).1).length + (ndigits_dec_loop x c).2
        = (textual_representation 10 u x).length + c := by
  induction x using Nat.strong_induction_on generalizing c with
  | _ x ih =>
    rw [ndigits_dec_loop]
    by_cases h : 10000 ≤ x
    · rw [if_pos h]
      have := ih (x / 10000) (by omega) (c + 4)
      rw [dec_length_block u x h]
      omega
    · rw [if_neg h]
      exact ⟨by omega, rfl⟩

theorem ndigits_dec_eq (u : Bool) (x : Nat) :
    ndigits_dec x = (textual_representation 10 u x).length := by
  have h := ndigits_dec_loop_spec u x 0
  have ht := dec_length_tail u (ndigits_dec_loop x 0).1 h.1
  unfold ndigits_dec
  simp only []
  split_ifs at ht ⊢ <;> omega

theorem ndigits_oct_loop_spec (u : Bool) (x c : Nat) :
    ndigits_oct_loop x c + 1 = (textual_representation 8 u x).length + c := by
  induction x using Nat.strong_induction_on generalizing c with
  | _ x ih =>
    rw [ndigits_oct_loop]
    by_cases h : 7 < x
    · rw [if_pos h, Nat.shiftRight_eq_div_pow]
      have := ih (x / 2 ^ 3) (by omega) (c + 1)
      have e := textual_representation_length_step 8 u x (by omega) (by omega)
      have e2 : x / 2 ^ 3 = x / 8 := by norm_num
      rw [e2] at this ⊢
      omega
    · rw [if_neg h, textual_representation_length_small 8 u x (by omega)]
      omega

theorem ndigits_oct_eq (u : Bool) (x : Nat) :
    ndigits_oct x = (textual_representation 8 u x).length := by
  have := ndigits_oct_loop_spec u x 1
  unfold ndigits_oct
  omega

theorem ndigits_hex_loop_spec (u : Bool) (x c : Nat) :
    ndigits_hex_loop x c + 1 = (textual_representation 16 u x).length + c := by
  induction x using Nat.strong_induction_on generalizing c with
  | _ x ih =>
    rw [ndigits_hex_loop]
    by_cases h : 15 < x
    · rw [if_pos h, Nat.shiftRight_eq_div_pow]
      have := ih (x / 2 ^ 4) (by omega) (c + 1)
      have e := textual_representation_length_step 16 u x (by omega) (by omega)
      have e2 : x / 2 ^ 4 = x / 16 := by norm_num
      rw [e2] at this ⊢
      omega
    · rw [if_neg h, textual_representation_length_small 16 u x (by omega)]
      omega

theorem ndigits_hex_eq (u : Bool) (x : Nat) :
    ndigits_hex x = (textual_representation 16 u x).length := by
  have := ndigits_hex_loop_spec u x 1
  unfold ndigits_hex
  omega

/-! ## Storage -/

theorem Buf.write_same (buf : Buf) (i v : Nat) : (buf.write i v) i = v := by
  simp [Buf.write]

theorem Buf.write_other (buf : Buf) (i v j : Nat) (h : j ≠ i) : (buf.write i v) j = buf j := by
  simp [Buf.write, h]

theorem Buf.slice_length (buf : Buf) (p n : Nat) : (buf.slice p n).length = n := by
  simp [Buf.slice]

theorem Buf.slice_succ (buf : Buf) (p n : Nat) :
    buf.slice p (n + 1) = buf.slice p n ++ [buf (p + n)] := by
  simp [Buf.slice, List.range_succ]

theorem Buf.slice_congr (f g : Buf) (p n : Nat) (h : ∀ j, p ≤ j → j < p + n → f j = g j) :
    f.slice p n = g.slice p n := by
  unfold Buf.slice
  apply List.map_congr_left
  intro i hi
  have := List.mem_range.mp hi
  exact h (p + i) (by omega) (by omega)

theorem Buf.slice_add (buf : Buf) (p n k : Nat) :
    buf.slice p (n + k) = buf.slice p n ++ buf.slice (p + n) k := by
  induction k with
  | zero => simp [Buf.slice]
  | succ k ih =>
    rw [← Nat.add_assoc, Buf.slice_succ, ih, Buf.slice_succ, List.append_assoc, Nat.add_assoc]

theorem Buf.slice_one (buf : Buf) (p : Nat) : buf.slice p 1 = [buf p] := rfl

theorem Buf.slice_cons (buf : Buf) (p n : Nat) :
    buf.slice p (n + 1) = buf p :: buf.slice (p + 1) n := by
  rw [Nat.add_comm n 1, Buf.slice_add, Buf.slice_one]
  rfl

/-! ## The extraction loops are instances of the common loop -/

theorem extract_digits_dec_loop_eq (p m x : Nat) (buf : Buf) :
    extract_digits_dec_loop p m x buf = extract_loop 10 dec_digit p m x buf := by
  induction m generalizing x buf with
  | zero => rfl
  | succ m ih =>
    simp only [extract_digits_dec_loop, extract_loop]
    by_cases h : 9 < x
    · have h2 : 10 ≤ x := h
      have e : x - x / 10 * 10 = x % 10 := by omega
      rw [if_pos h, if_pos h2, ih, e]
      rfl
    · have h2 : ¬ 10 ≤ x := by omega
      rw [if_neg h, if_neg h2]

theorem extract_digits_oct_loop_eq (p m x : Nat) (buf : Buf) :
    extract_digits_oct_loop p m x buf = extract_loop 8 dec_digit p m x buf := by
  induction m generalizing x buf with
  | zero => rfl
  | succ m ih =>
    simp only [extract_digits_oct_loop, extract_loop]
    have e1 : x &&& 7 = x % 8 := Nat.and_pow_two_sub_one_eq_mod x 3
    have e2 : x >>> 3 = x / 8 := by rw [Nat.shiftRight_eq_div_pow]
    by_cases h : 7 < x
    · have h2 : 8 ≤ x := h
      rw [if_pos h, if_pos h2, ih, e1, e2]
      rfl
    · have h2 : ¬ 8 ≤ x := by omega
      rw [if_neg h, if_neg h2]

theorem extract_digits_hex_loop_eq (a p m x : Nat) (buf : Buf) :
    extract_digits_hex_loop a p m x buf = extract_loop 16 (hex_digit a) p m x buf := by
  induction m generalizing x buf with
  | zero => rfl
  | succ m ih =>
    simp only [extract_digits_hex_loop, extract_loop]
    have e1 : x &&& 15 = x % 16 := Nat.and_pow_two_sub_one_eq_mod x 4
    have e2 : x >>> 4 = x / 16 := by rw [Nat.shiftRight_eq_div_pow]
    by_cases h : 15 < x
    · have h2 : 16 ≤ x := h
      rw [if_pos h, if_pos h2, ih, e1, e2]
      rfl
    · have h2 : ¬ 16 ≤ x := by omega
      rw [if_neg h, if_neg h2]

/-! ## What the common loop leaves in the storage -/

theorem textual_representation_length_two (b : Nat) (u : Bool) (x : Nat) (hb : 1 < b)
    (hx : b ≤ x) : 2 ≤ (textual_representation b u x).length := by
  have := textual_representation_length_step b u x hb hx
  have := textual_representation_length_pos b u (x / b)
  omega

/-- With room for all the digits (`m + 1` places), the loop followed by the last store
ends with one digit left, the cursor on the first digit, the digits of `x` from the
cursor on, and nothing else changed. -/
theorem extract_loop_spec (b : Nat) (u : Bool) (ch : Nat → Nat) (p : Nat) (hb : 1 < b)
    (hch : ∀ d, d < b → ch d = digit_char u d) :
    ∀ (m x : Nat) (buf : Buf), (textual_representation b u x).length ≤ m + 1 →
      (extract_loop b ch p m x buf).x < b ∧
      (extract_loop b ch p m x buf).m + (textual_representation b u x).length = m + 1 ∧
      Buf.slice ((extract_loop b ch p m x buf).buf.write (p + (extract_loop b ch p m x buf).m)
          (ch (extract_loop b ch p m x buf).x))
        (p + (extract_loop b ch p m x buf).m) (textual_representation b u x).length
        = textual_representation b u x ∧
      ∀ j, (j < p + (extract_loop b ch p m x buf).m ∨ p + m < j) →
        ((extract_loop b ch p m x buf).buf.write (p + (extract_loop b ch p m x buf).m)
          (ch (extract_loop b ch p m x buf).x)) j = buf j := by
  intro m
  induction m with
  | zero =>
    intro x buf hlen
    have hx : x < b := by
      by_contra hc
      have := textual_representation_length_two b u x hb (by omega)
      omega
    have hl := textual_representation_length_small b u x hx
    simp only [extract_loop]
    refine ⟨hx, by omega, ?_, ?_⟩
    · rw [hl, textual_representation_small b u x hx, ← hch x hx]
      rw [Buf.slice_one, Buf.write_same]
    · intro j hj
      exact Buf.write_other _ _ _ _ (by omega)
  | succ m ih =>
    intro x buf hlen
    by_cases hx : b ≤ x
    · have hstep := textual_representation_step b u x hb hx
      have hl := textual_representation_length_step b u x hb hx
      have hmod : x % b < b := Nat.mod_lt _ (by omega)
      obtain ⟨h1, h2, h3, h4⟩ :=
        ih (x / b) (buf.write (p + (m + 1)) (ch (x % b))) (by omega)
      simp only [extract_loop, if_pos hx]
      refine ⟨h1, by omega, ?_, ?_⟩
      · rw [hl, Buf.slice_succ, h3, hstep]
        congr 1
        rw [h4 _ (Or.inr (by omega)), ← hch _ hmod]
        have e : p + (extract_loop b ch p m (x / b)
            (buf.write (p + (m + 1)) (ch (x % b)))).m
              + (textual_representation b u (x / b)).length = p + (m + 1) := by omega
        rw [e, Buf.write_same]
      · intro j hj
        rw [h4 j (by omega)]
        exact Buf.write_other _ _ _ _ (by omega)
    · have hx2 : x < b := by omega
      have hl := textual_representation_length_small b u x hx2
      simp only [extract_loop, if_neg hx]
      refine ⟨hx2, by omega, ?_, ?_⟩
      · rw [hl, textual_representation_small b u x hx2, ← hch x hx2]
        rw [Buf.slice_one, Buf.write_same]
      · intro j hj
        exact Buf.write_other _ _ _ _ (by omega)

/-! ## The characters stored are the digit characters -/

theorem dec_digit_eq (u : Bool) (d : Nat) (hd : d < 10) : dec_digit d = digit_char u d := by
  unfold dec_digit digit_char to_charT CH_0
  rw [if_pos hd]
  omega

theorem hex_digit_eq (u : Bool) (d : Nat) (hd : d < 16) :
    hex_digit (if u then CH_A else CH_a) d = digit_char u d := by
  unfold hex_digit digit_char to_charT CH_0 CH_A CH_a
  cases u <;> by_cases h : d < 10 <;> simp [h] <;> omega

theorem char_value_digit_char (u : Bool) (d : Nat) (hd : d < 16) :
    char_value (digit_char u d) = some d := by
  unfold char_value digit_char
  by_cases h : d < 10
  · have h1 : 48 ≤ 48 + d ∧ 48 + d ≤ 57 := by omega
    rw [if_pos h, if_pos h1]
    congr 1
    omega
  · cases u
    · have h1 : ¬ (48 ≤ 97 + (d - 10) ∧ 97 + (d - 10) ≤ 57) := by omega
      have h2 : ¬ (65 ≤ 97 + (d - 10) ∧ 97 + (d - 10) ≤ 70) := by omega
      have h3 : 97 ≤ 97 + (d - 10) ∧ 97 + (d - 10) ≤ 102 := by omega
      simp only [if_neg h, Bool.false_eq_true, if_false, if_neg h1, if_neg h2, if_pos h3]
      congr 1
      omega
    · have h1 : ¬ (48 ≤ 65 + (d - 10) ∧ 65 + (d - 10) ≤ 57) := by omega
      have h3 : 65 ≤ 65 + (d - 10) ∧ 65 + (d - 10) ≤ 70 := by omega
      simp only [if_neg h, if_true, if_neg h1, if_pos h3]
      congr 1
      omega

/-! ## Reading the standard representation back -/

theorem parse_step_digit (b : Nat) (u : Bool) (a d : Nat) (hb : b ≤ 16) (hd : d < b) :
    parse_step b (some a) (digit_char u d) = some (a * b + d) := by
  unfold parse_step
  rw [char_value_digit_char u d (by omega)]
  simp [hd]

theorem parse_foldl_textual_representation (b : Nat) (u : Bool) (hb : 1 < b) (hb16 : b ≤ 16)
    (x : Nat) :
    (textual_representation b u x).foldl (parse_step b) (some 0) = some x := by
  induction x using Nat.strong_induction_on with
  | _ x ih =>
    by_cases hx : b ≤ x
    · rw [textual_representation_step b u x hb hx, List.foldl_append,
        ih (x / b) (Nat.div_lt_self (by omega) hb)]
      simp only [List.foldl_cons, List.foldl_nil]
      rw [parse_step_digit b u (x / b) (x % b) hb16 (Nat.mod_lt _ (by omega))]
      congr 1
      rw [Nat.mul_comm]
      exact Nat.div_add_mod x b
    · rw [textual_representation_small b u x (by omega)]
      simp only [List.foldl_cons, List.foldl_nil]
      rw [parse_step_digit b u 0 x hb16 (by omega)]
      simp

theorem textual_representation_ne_nil (b : Nat) (u : Bool) (x : Nat) :
    textual_representation b u x ≠ [] := by
  intro h
  have := textual_representation_length_pos b u x
  rw [h] at this
  simp at this

theorem parse_digits_textual_representation (b : Nat) (u : Bool) (hb : 1 < b) (hb16 : b ≤ 16)
    (x : Nat) : parse_digits b (textual_representation b u x) = some x := by
  unfold parse_digits
  rw [if_neg (textual_representation_ne_nil b u x)]
  exact parse_foldl_textual_representation b u hb hb16 x

theorem textual_representation_mem (b : Nat) (u : Bool) (x : Nat) (hb : 1 < b) (c : Nat)
    (hc : c ∈ textual_representation b u x) : ∃ d, d < b ∧ c = digit_char u d := by
  unfold textual_representation at hc
  by_cases h0 : x = 0
  · rw [if_pos h0] at hc
    simp at hc
    exact ⟨0, by omega, by rw [hc, digit_char_zero]⟩
  · rw [if_neg h0] at hc
    simp only [List.mem_map, List.mem_reverse] at hc
    obtain ⟨d, hd, rfl⟩ := hc
    exact ⟨d, Nat.digits_lt_base hb hd, rfl⟩

theorem textual_representation_oct_chars (u : Bool) (x c : Nat)
    (hc : c ∈ textual_representation 8 u x) : is_oct_char c := by
  obtain ⟨d, hd, rfl⟩ := textual_representation_mem 8 u x (by omega) c hc
  unfold is_oct_char digit_char
  rw [if_pos (by omega)]
  omega

theorem textual_representation_hex_chars (u : Bool) (x c : Nat)
    (hc : c ∈ textual_representation 16 u x) : is_hex_char u c := by
  obtain ⟨d, hd, rfl⟩ := textual_representation_mem 16 u x (by omega) c hc
  unfold is_hex_char digit_char
  by_cases h : d < 10
  · rw [if_pos h]
    left
    omega
  · rw [if_neg h]
    right
    cases u <;> simp <;> omega

/-- The representation in base 8 (and in base 10) has no letters: the letter case is
immaterial. -/
theorem textual_representation_case (b : Nat) (u v : Bool) (x : Nat) (hb : 1 < b)
    (hb10 : b ≤ 10) : textual_representation b u x = textual_representation b v x := by
  induction x using Nat.strong_induction_on with
  | _ x ih =>
    have hd : ∀ d, d < b → digit_char u d = digit_char v d := by
      intro d hd
      unfold digit_char
      rw [if_pos (by omega), if_pos (by omega)]
    by_cases hx : b ≤ x
    · rw [textual_representation_step b u x hb hx, textual_representation_step b v x hb hx,
        ih (x / b) (Nat.div_lt_self (by omega) hb), hd _ (Nat.mod_lt _ (by omega))]
    · rw [textual_representation_small b u x (by omega),
        textual_representation_small b v x (by omega), hd _ (by omega)]

/-! ## The digit extractors -/

theorem size_sub_one (n : Nat) (hn : 1 ≤ n) : size_sub n 1 = n - 1 := by
  unfold size_sub
  rw [if_pos hn]

/-- The common statement of the three extractors, on the common loop: with `n` the
number of digits of `x`, the last digit is left for the final store, the cursor is 0,
the storage holds the representation in `[p, p + n)` and is unchanged elsewhere. -/
theorem extract_loop_exact (b : Nat) (u : Bool) (ch : Nat → Nat) (p : Nat) (hb : 1 < b)
    (hch : ∀ d, d < b → ch d = digit_char u d) (x : Nat) (buf : Buf) :
    (extract_loop b ch p ((textual_representation b u x).length - 1) x buf).x < b ∧
    (extract_loop b ch p ((textual_representation b u x).length - 1) x buf).m = 0 ∧
    Buf.slice ((extract_loop b ch p ((textual_representation b u x).length - 1) x buf).buf.write
        (p + (extract_loop b ch p ((textual_representation b u x).length - 1) x buf).m)
        (ch (extract_loop b ch p ((textual_representation b u x).length - 1) x buf).x))
      p (textual_representation b u x).length = textual_representation b u x ∧
    ∀ j, (j < p ∨ p + (textual_representation b u x).length ≤ j) →
      ((extract_loop b ch p ((textual_representation b u x).length - 1) x buf).buf.write
        (p + (extract_loop b ch p ((textual_representation b u x).length - 1) x buf).m)
        (ch (extract_loop b ch p ((textual_representation b u x).length - 1) x buf).x)) j
        = buf j := by
  have hpos := textual_representation_length_pos b u x
  obtain ⟨h1, h2, h3, h4⟩ := extract_loop_spec b u ch p hb hch
    ((textual_representation b u x).length - 1) x buf (by omega)
  have hm : (extract_loop b ch p ((textual_representation b u x).length - 1) x buf).m = 0 := by
    omega
  rw [hm] at h3 h4
  rw [hm]
  refine ⟨h1, rfl, h3, ?_⟩
  intro j hj
  exact h4 j (by omega)

theorem extract_digits_dec_spec (x : Nat) (buf : Buf) (p : Nat) :
    ∃ out, extract_digits_dec x buf p (ndigits_dec x) = some out ∧
      out.slice p (ndigits_dec x) = textual_representation 10 false x ∧
      ∀ j, (j < p ∨ p + ndigits_dec x ≤ j) → out j = buf j := by
  have hn := ndigits_dec_eq false x
  have hpos := textual_representation_length_pos 10 false x
  obtain ⟨h1, _, h3, h4⟩ := extract_loop_exact 10 false dec_digit p (by omega)
    (fun d hd => dec_digit_eq false d hd) x buf
  unfold extract_digits_dec
  rw [size_sub_one _ (by omega)]
  simp only [extract_digits_dec_loop_eq]
  rw [hn]
  refine ⟨_, ?_, h3, h4⟩
  simp only [CLUE_ASSERT, if_pos h1, bind, Option.bind, pure]
  rfl

theorem extract_digits_oct_spec (x : Nat) (buf : Buf) (p : Nat) :
    ∃ out, extract_digits_oct x buf p (ndigits_oct x) = some out ∧
      out.slice p (ndigits_oct x) = textual_representation 8 false x ∧
      ∀ j, (j < p ∨ p + ndigits_oct x ≤ j) → out j = buf j := by
  have hn := ndigits_oct_eq false x
  have hpos := textual_representation_length_pos 8 false x
  obtain ⟨h1, _, h3, h4⟩ := extract_loop_exact 8 false dec_digit p (by omega)
    (fun d hd => dec_digit_eq false d (by omega)) x buf
  unfold extract_digits_oct
  rw [size_sub_one _ (by omega)]
  simp only [extract_digits_oct_loop_eq]
  rw [hn]
  refine ⟨_, ?_, h3, h4⟩
  simp only [CLUE_ASSERT, if_pos h1, bind, Option.bind, pure]
  rfl

theorem extract_digits_hex_spec (x : Nat) (upper : Bool) (buf : Buf) (p : Nat) :
    ∃ out, extract_digits_hex x upper buf p (ndigits_hex x) = some out ∧
      out.slice p (ndigits_hex x) = textual_representation 16 upper x ∧
      ∀ j, (j < p ∨ p + ndigits_hex x ≤ j) → out j = buf j := by
  have hn := ndigits_hex_eq upper x
  have hpos := textual_representation_length_pos 16 upper x
  obtain ⟨h1, _, h3, h4⟩ := extract_loop_exact 16 upper
    (hex_digit (if upper then CH_A else CH_a)) p (by omega)
    (fun d hd => hex_digit_eq upper d hd) x buf
  unfold extract_digits_hex
  rw [size_sub_one _ (by omega)]
  simp only [extract_digits_hex_loop_eq]
  rw [hn]
  refine ⟨_, ?_, h3, h4⟩
  simp only [CLUE_ASSERT, if_pos h1, bind, Option.bind, pure]
  rfl

/-! ## Magnitude -/

theorem uabs_signed_eq (N : Nat) (x : Int) (hN : 1 ≤ N)
    (hlo : -(2 : Int) ^ (N - 1) ≤ x) (hhi : x < (2 : Int) ^ (N - 1)) :
    uabs_helper_signed_get N x = x.natAbs := by
  have hpow : (2 : Int) ^ N = 2 * (2 : Int) ^ (N - 1) := by
    have : N = (N - 1) + 1 := by omega
    conv_lhs => rw [this]
    rw [pow_succ]
    ring
  have hM : (0 : Int) < (2 : Int) ^ (N - 1) := by positivity
  unfold uabs_helper_signed_get static_cast_unsigned neg_signed
  rw [hpow]
  generalize (2 : Int) ^ (N - 1) = M at *
  by_cases hx : x < 0
  · rw [if_pos hx]
    by_cases hmin : x = -M
    · subst hmin
      have e1 : (- -M + M) % (2 * M) = 0 := by
        have : - -M + M = 2 * M := by ring
        rw [this, Int.emod_self]
      rw [e1]
      have e2 : (0 - M) % (2 * M) = M := by
        have : (0 - M) = M + (2 * M) * (-1) := by ring
        rw [this, Int.add_mul_emod_self_left, Int.emod_eq_of_lt (by omega) (by omega)]
      rw [e2]
      omega
    · have e1 : (-x + M) % (2 * M) = -x + M := Int.emod_eq_of_lt (by omega) (by omega)
      rw [e1]
      have e2 : (-x + M - M) % (2 * M) = -x := by
        have : -x + M - M = -x := by ring
        rw [this, Int.emod_eq_of_lt (by omega) (by omega)]
      rw [e2]
      omega
  · rw [if_neg hx, Int.emod_eq_of_lt (by omega) (by omega)]
    omega

theorem uabs_eq_natAbs (T : IntType) (x : Int) (hN : 1 ≤ T.bits) (hx : T.holds x) :
    uabs T x = x.natAbs := by
  unfold IntType.holds at hx
  unfold uabs
  by_cases hs : T.signed = true
  · rw [if_pos hs] at hx ⊢
    exact uabs_signed_eq T.bits x hN hx.1 hx.2
  · rw [if_neg hs] at hx ⊢
    unfold uabs_helper_unsigned_get
    omega

/-! ## The reference representation is the one of `Nat.toDigits` -/

theorem digitChar_toNat (d : Nat) (hd : d < 16) : (Nat.digitChar d).toNat = digit_char false d := by
  interval_cases d <;> rfl

theorem toDigitsCore_eq (b : Nat) (hb : 1 < b) (hb16 : b ≤ 16) :
    ∀ (fuel n : Nat) (ds : List Char), n < fuel →
      (Nat.toDigitsCore b fuel n ds).map Char.toNat
        = textual_representation b false n ++ ds.map Char.toNat := by
  intro fuel
  induction fuel with
  | zero => intro n ds h; omega
  | succ fuel ih =>
    intro n ds h
    have hmod : n % b < b := Nat.mod_lt _ (by omega)
    unfold Nat.toDigitsCore
    by_cases hq : n / b = 0
    · have hn : n < b := by
        by_contra hc
        have : 0 < n / b := Nat.div_pos (by omega) (by omega)
        omega
      simp only [hq, if_true]
      rw [textual_representation_small b false n hn, Nat.mod_eq_of_lt hn]
      simp [digitChar_toNat n (by omega)]
    · have hn : b ≤ n := by
        by_contra hc
        exact hq (Nat.div_eq_of_lt (by omega))
      simp only [hq, if_false]
      have hlt : n / b < fuel := by
        have := Nat.div_lt_self (show 0 < n by omega) hb
        omega
      rw [ih (n / b) _ hlt, textual_representation_step b false n hb hn]
      simp [digitChar_toNat (n % b) (by omega)]

theorem toDigits_eq (b : Nat) (hb : 1 < b) (hb16 : b ≤ 16) (x : Nat) :
    (Nat.toDigits b x).map Char.toNat = textual_representation b false x := by
  unfold Nat.toDigits
  rw [toDigitsCore_eq b hb hb16 (x + 1) x [] (by omega)]
  simp

theorem repr_length_eq (x : Nat) :
    (Nat.repr x).length = (textual_representation 10 false x).length := by
  rw [← toDigits_eq 10 (by omega) (by omega) x, List.length_map]
  rfl

/-! ## The steps of a render -/

theorem Emits.append (buf out1 out2 : Buf) (p q r : Nat) (t1 t2 : List Nat)
    (h1 : Emits buf p out1 q t1) (h2 : Emits out1 q out2 r t2) :
    Emits buf p out2 r (t1 ++ t2) := by
  obtain ⟨hq, hs1, hu1⟩ := h1
  obtain ⟨hr, hs2, hu2⟩ := h2
  refine ⟨by rw [List.length_append]; omega, ?_, ?_⟩
  · rw [List.length_append, Buf.slice_add, ← hq, hs2]
    rw [Buf.slice_congr out2 out1 p t1.length (fun j _ hj => hu2 j (Or.inl (by omega))), hs1]
  · intro j hj
    rw [hu2 j (by omega), hu1 j (by omega)]

theorem Emits.nil (buf : Buf) (p : Nat) : Emits buf p buf p [] :=
  ⟨rfl, rfl, fun _ _ => rfl⟩

theorem sign_char_ne_zero (x : Int) (showpos : Bool) :
    sign_char x showpos ≠ 0 ↔ (x < 0 ∨ showpos = true) := by
  unfold sign_char CH_MINUS CH_PLUS CH_NUL
  by_cases hx : x < 0
  · simp [hx]
  · cases showpos <;> simp [hx]

theorem put_sign_emits (x : Int) (showpos : Bool) (buf : Buf) (p : Nat) :
    Emits buf p (put_sign (sign_char x showpos) buf p).1 (put_sign (sign_char x showpos) buf p).2
      (sign_text x showpos) := by
  unfold put_sign sign_text sign_char CH_MINUS CH_PLUS CH_NUL to_charT
  by_cases hx : x < 0
  · simp only [if_pos hx]
    refine ⟨rfl, ?_, ?_⟩
    · simp [Buf.slice_one, Buf.write]
    · intro j hj
      exact Buf.write_other _ _ _ _ (by simp at hj; omega)
  · cases showpos
    · simp only [if_neg hx]
      exact Emits.nil buf p
    · simp only [if_neg hx]
      refine ⟨rfl, ?_, ?_⟩
      · simp [Buf.slice_one, Buf.write]
      · intro j hj
        exact Buf.write_other _ _ _ _ (by simp at hj; omega)

theorem fill_chars_emits (buf : Buf) (p n c : Nat) :
    Emits buf p (fill_chars buf p n c).1 (fill_chars buf p n c).2 (List.replicate n c) := by
  unfold fill_chars
  refine ⟨by simp, ?_, ?_⟩
  · simp only [List.length_replicate]
    apply List.ext_getElem
    · simp [Buf.slice_length]
    · intro i h1 h2
      simp only [Buf.slice_length] at h1
      simp [Buf.slice, h1]
  · intro j hj
    have : ¬ (p ≤ j ∧ j < p + n) := by omega
    simp only [if_neg this]

theorem put_digits_emits (N : Radix) (T : IntType) (x : Int) (upper : Bool) (hN : 1 ≤ T.bits)
    (hx : T.holds x) (buf : Buf) (p : Nat) :
    (int_render_helper.make N T x upper).nd = (digits_text N upper x).length ∧
    ∃ out, (int_render_helper.make N T x upper).put_digits buf p
        = some (out, p + (digits_text N upper x).length) ∧
      Emits buf p out (p + (digits_text N upper x).length) (digits_text N upper x) := by
  have hax := uabs_eq_natAbs T x hN hx
  unfold digits_text
  cases N
  · have hc := textual_representation_case 10 false upper x.natAbs (by omega) (by omega)
    obtain ⟨out, h1, h2, h3⟩ := extract_digits_dec_spec x.natAbs buf p
    have hn := ndigits_dec_eq upper x.natAbs
    simp only [int_render_helper.make, int_render_helper.dec, int_render_helper.put_digits,
      Radix.toNat, hax]
    refine ⟨hn, out, ?_, ?_⟩
    · rw [h1, hn]; rfl
    · rw [hn, hc] at h2
      rw [hn] at h3
      exact ⟨rfl, h2, h3⟩
  · have hc := textual_representation_case 8 false upper x.natAbs (by omega) (by omega)
    obtain ⟨out, h1, h2, h3⟩ := extract_digits_oct_spec x.natAbs buf p
    have hn := ndigits_oct_eq upper x.natAbs
    simp only [int_render_helper.make, int_render_helper.oct, int_render_helper.put_digits,
      Radix.toNat, hax]
    refine ⟨hn, out, ?_, ?_⟩
    · rw [h1, hn]; rfl
    · rw [hn, hc] at h2
      rw [hn] at h3
      exact ⟨rfl, h2, h3⟩
  · obtain ⟨out, h1, h2, h3⟩ := extract_digits_hex_spec x.natAbs upper buf p
    have hn := ndigits_hex_eq upper x.natAbs
    simp only [int_render_helper.make, int_render_helper.hex, int_render_helper.put_digits,
      Radix.toNat, hax]
    refine ⟨hn, out, ?_, ?_⟩
    · rw [h1, hn]; rfl
    · rw [hn] at h2 h3
      exact ⟨rfl, h2, h3⟩

/-- The last store of a render, the terminator at the cursor. -/
theorem Emits.terminate (buf out : Buf) (q : Nat) (text : List Nat)
    (h : Emits buf 0 out q text) :
    q = text.length ∧ (out.write q (to_charT CH_NUL)).slice 0 q = text ∧
      (out.write q (to_charT CH_NUL)) q = 0 ∧
      ∀ j, q < j → (out.write q (to_charT CH_NUL)) j = buf j := by
  obtain ⟨hq, hs, hu⟩ := h
  have hq2 : q = text.length := by omega
  subst hq2
  refine ⟨rfl, ?_, ?_, ?_⟩
  · rw [Buf.slice_congr (out.write text.length (to_charT CH_NUL)) out 0 text.length
      (fun j _ hj => Buf.write_other _ _ _ _ (by omega)), hs]
  · rw [Buf.write_same]; rfl
  · intro j hj
    rw [Buf.write_other _ _ _ _ (by omega)]
    exact hu j (Or.inr (by omega))

theorem sign_text_length (x : Int) (showpos : Bool) :
    (sign_text x showpos).length = if x < 0 ∨ showpos = true then 1 else 0 := by
  unfold sign_text
  by_cases hx : x < 0
  · simp [hx]
  · cases showpos <;> simp [hx]

theorem compact_text_length (N : Radix) (upper : Bool) (x : Int) (showpos : Bool) :
    (compact_text N upper x showpos).length = natural_length N upper x showpos := by
  unfold compact_text natural_length
  rw [List.length_append, sign_text_length]
  omega

/-! ## The two renders -/

theorem render_flen (N : Radix) (T : IntType) (x : Int) (upper showpos : Bool) (hN : 1 ≤ T.bits)
    (hx : T.holds x) :
    (if sign_char x showpos ≠ 0 then (int_render_helper.make N T x upper).nd + 1
      else (int_render_helper.make N T x upper).nd) = natural_length N upper x showpos := by
  have hnd := (put_digits_emits N T x upper hN hx (fun _ => 0) 0).1
  unfold natural_length
  rw [hnd]
  by_cases hs : x < 0 ∨ showpos = true
  · rw [if_pos ((sign_char_ne_zero x showpos).mpr hs), if_pos hs]
  · rw [if_neg (fun h => hs ((sign_char_ne_zero x showpos).mp h)), if_neg hs]
    rfl

/-- The sign and the digits, the common part of all the layouts. -/
theorem sign_digits_emits (N : Radix) (T : IntType) (x : Int) (upper showpos : Bool)
    (hN : 1 ≤ T.bits) (hx : T.holds x) (buf : Buf) (p : Nat) :
    ∃ out q, (int_render_helper.make N T x upper).put_digits
        (put_sign (sign_char x showpos) buf p).1 (put_sign (sign_char x showpos) buf p).2
        = some (out, q) ∧
      Emits buf p out q (compact_text N upper x showpos) := by
  have hs := put_sign_emits x showpos buf p
  obtain ⟨_, out, h1, h2⟩ := put_digits_emits N T x upper hN hx
    (put_sign (sign_char x showpos) buf p).1 (put_sign (sign_char x showpos) buf p).2
  exact ⟨out, _, h1, Emits.append _ _ _ _ _ _ _ _ hs h2⟩

theorem render_spec (N : Radix) (T : IntType) (x : Int) (upper showpos : Bool) (buf : Buf)
    (buf_len : Nat) (hN : 1 ≤ T.bits) (hx : T.holds x)
    (hcap : natural_length N upper x showpos < buf_len) :
    ∃ out, render x (int_render_helper.make N T x upper) showpos buf buf_len
        = some (natural_length N upper x showpos, out) ∧
      out.slice 0 (natural_length N upper x showpos) = compact_text N upper x showpos ∧
      out (natural_length N upper x showpos) = 0 ∧
      ∀ j, natural_length N upper x showpos < j → out j = buf j := by
  obtain ⟨out, q, h1, h2⟩ := sign_digits_emits N T x upper showpos hN hx buf 0
  obtain ⟨hq, t1, t2, t3⟩ := Emits.terminate buf out q _ h2
  rw [compact_text_length] at hq
  subst hq
  refine ⟨_, ?_, t1, t2, t3⟩
  unfold render
  simp only [render_flen N T x upper showpos hN hx, CLUE_ASSERT, gt_iff_lt, if_pos hcap, h1,
    bind, Option.bind, pure]

theorem render_abort (N : Radix) (T : IntType) (x : Int) (upper showpos : Bool) (buf : Buf)
    (buf_len : Nat) (hN : 1 ≤ T.bits) (hx : T.holds x)
    (hcap : buf_len ≤ natural_length N upper x showpos) :
    render x (int_render_helper.make N T x upper) showpos buf buf_len = none := by
  unfold render
  have : ¬ natural_length N upper x showpos < buf_len := by omega
  simp only [render_flen N T x upper showpos hN hx, CLUE_ASSERT, gt_iff_lt, if_neg this,
    bind, Option.bind]

theorem render_layout_spec (N : Radix) (T : IntType) (x : Int) (upper showpos padzeros : Bool)
    (width : Nat) (left : Bool) (buf : Buf) (buf_len : Nat) (hN : 1 ≤ T.bits) (hx : T.holds x)
    (hcap : natural_length N upper x showpos < buf_len) :
    ∃ out, render_layout x (int_render_helper.make N T x upper) showpos padzeros width left
          buf buf_len
        = some (max width (natural_length N upper x showpos), out) ∧
      out.slice 0 (max width (natural_length N upper x showpos))
        = layout_text N upper x showpos padzeros width left ∧
      out (max width (natural_length N upper x showpos)) = 0 ∧
      ∀ j, max width (natural_length N upper x showpos) < j → out j = buf j := by
  unfold render_layout layout_text
  simp only [render_flen N T x upper showpos hN hx, CLUE_ASSERT, gt_iff_lt, if_pos hcap,
    bind, Option.bind, pure]
  by_cases hw : natural_length N upper x showpos < width
  · have hmax : max width (natural_length N upper x showpos) = width := by omega
    rw [hmax]
    simp only [if_pos hw]
    cases left
    · cases padzeros
      · -- right-justified
        simp only [Bool.false_eq_true, if_false]
        have hf := fill_chars_emits buf 0 (width - natural_length N upper x showpos) CH_SPACE
        obtain ⟨out, q, h1, h2⟩ := sign_digits_emits N T x upper showpos hN hx
          (fill_chars buf 0 (width - natural_length N upper x showpos) CH_SPACE).1
          (fill_chars buf 0 (width - natural_length N upper x showpos) CH_SPACE).2
        have h3 := Emits.append _ _ _ _ _ _ _ _ hf h2
        obtain ⟨hq, t1, t2, t3⟩ := Emits.terminate buf out q _ h3
        have hq2 : q = width := by
          rw [hq, List.length_append, List.length_replicate, compact_text_length]
          omega
        subst hq2
        rw [h1]
        refine ⟨_, rfl, ?_, t2, t3⟩
        rw [t1]
        unfold compact_text CH_SPACE
        rw [List.append_assoc]
      · -- zero-padded
        simp only [Bool.false_eq_true, if_false, if_true]
        have hs := put_sign_emits x showpos buf 0
        have hf := fill_chars_emits (put_sign (sign_char x showpos) buf 0).1
          (put_sign (sign_char x showpos) buf 0).2
          (width - natural_length N upper x showpos) CH_0
        obtain ⟨_, out, h1, h2⟩ := put_digits_emits N T x upper hN hx
          (fill_chars (put_sign (sign_char x showpos) buf 0).1
            (put_sign (sign_char x showpos) buf 0).2
            (width - natural_length N upper x showpos) CH_0).1
          (fill_chars (put_sign (sign_char x showpos) buf 0).1
            (put_sign (sign_char x showpos) buf 0).2
            (width - natural_length N upper x showpos) CH_0).2
        have h3 := Emits.append _ _ _ _ _ _ _ _ (Emits.append _ _ _ _ _ _ _ _ hs hf) h2
        obtain ⟨hq, t1, t2, t3⟩ := Emits.terminate buf out _ _ h3
        have hq2 : (fill_chars (put_sign (sign_char x showpos) buf 0).1
            (put_sign (sign_char x showpos) buf 0).2
            (width - natural_length N upper x showpos) CH_0).2
            + (digits_text N upper x).length = width := by
          rw [hq]
          simp only [List.length_append, List.length_replicate, sign_text_length]
          unfold natural_length at hw ⊢
          omega
        rw [h1]
        dsimp only
        rw [hq2] at t1 t2 t3 ⊢
        exact ⟨_, rfl, t1, t2, t3⟩
    · -- left-justified
      simp only [if_true]
      obtain ⟨out, q, h1, h2⟩ := sign_digits_emits N T x upper showpos hN hx buf 0
      have hf := fill_chars_emits out q (width - natural_length N upper x showpos) CH_SPACE
      have h3 := Emits.append _ _ _ _ _ _ _ _ h2 hf
      obtain ⟨hq, t1, t2, t3⟩ := Emits.terminate buf _ _ _ h3
      have hq2 : (fill_chars out q (width - natural_length N upper x showpos) CH_SPACE).2
          = width := by
        rw [hq, List.length_append, List.length_replicate, compact_text_length]
        omega
      rw [h1]
      dsimp only
      rw [hq2] at t1 t2 t3 ⊢
      refine ⟨_, rfl, ?_, t2, t3⟩
      rw [t1]
      rfl
  · have hmax : max width (natural_length N upper x showpos) = natural_length N upper x showpos := by
      omega
    rw [hmax]
    simp only [if_neg hw]
    obtain ⟨out, q, h1, h2⟩ := sign_digits_emits N T x upper showpos hN hx buf 0
    obtain ⟨hq, t1, t2, t3⟩ := Emits.terminate buf out q _ h2
    rw [compact_text_length] at hq
    subst hq
    rw [h1]
    exact ⟨_, rfl, t1, t2, t3⟩

/-! ## Facts on the rendered text -/

theorem digit_count_eq (N : Radix) (upper : Bool) (x : Int) :
    digit_count N x.natAbs = (digits_text N upper x).length := by
  unfold digit_count digits_text
  cases N
  · exact ndigits_dec_eq upper x.natAbs
  · exact ndigits_oct_eq upper x.natAbs
  · exact ndigits_hex_eq upper x.natAbs

theorem natural_length_eq (N : Radix) (upper : Bool) (x : Int) (showpos : Bool) :
    natural_length N upper x showpos
      = if x < 0 ∨ showpos = true then digit_count N x.natAbs + 1 else digit_count N x.natAbs := by
  unfold natural_length
  rw [digit_count_eq N upper x]
  split_ifs <;> rfl

theorem Radix.toNat_bounds (N : Radix) : 1 < N.toNat ∧ N.toNat ≤ 16 := by
  cases N <;> simp [Radix.toNat]

theorem digit_char_pos (u : Bool) (d : Nat) : digit_char u d ≠ 0 := by
  unfold digit_char
  split_ifs <;> omega

theorem digits_text_ne_zero (N : Radix) (upper : Bool) (x : Int) (c : Nat)
    (hc : c ∈ digits_text N upper x) : c ≠ 0 := by
  obtain ⟨d, _, rfl⟩ := textual_representation_mem N.toNat upper x.natAbs
    (Radix.toNat_bounds N).1 c hc
  exact digit_char_pos upper d

theorem sign_text_ne_zero (x : Int) (showpos : Bool) (c : Nat)
    (hc : c ∈ sign_text x showpos) : c ≠ 0 := by
  unfold sign_text at hc
  split_ifs at hc <;> simp at hc <;> omega

theorem layout_text_ne_zero (N : Radix) (upper : Bool) (x : Int) (showpos padzeros : Bool)
    (width : Nat) (left : Bool) (c : Nat)
    (hc : c ∈ layout_text N upper x showpos padzeros width left) : c ≠ 0 := by
  have hs := sign_text_ne_zero x showpos c
  have hd := digits_text_ne_zero N upper x c
  unfold layout_text compact_text at hc
  split_ifs at hc <;>
    simp only [List.mem_append, List.mem_replicate] at hc
  all_goals
    repeat' rcases hc with hc | hc
  all_goals first
    | exact hs hc
    | exact hd hc
    | omega

theorem Buf.mem_slice (buf : Buf) (p n i : Nat) (hi : i < n) : buf (p + i) ∈ buf.slice p n := by
  unfold Buf.slice
  exact List.mem_map.mpr ⟨i, List.mem_range.mpr hi, rfl⟩

theorem render_layout_left_padzeros (x : Int) (h : int_render_helper) (showpos padzeros : Bool)
    (width : Nat) (buf : Buf) (buf_len : Nat) :
    render_layout x h showpos padzeros width true buf buf_len
      = render_layout x h showpos false width true buf buf_len := by
  unfold render_layout
  simp

/-! ## Claims -/

/-- C1: for every non-negative integer `x`, `ndigits_dec x` is the number of characters
of the standard decimal representation of `x` (the one `Nat.repr` prints, without leading
zeros); `ndigits_dec 0 = 1` and the result is at least 1. -/
theorem C1_ndigits_dec (x : Nat) :
    ndigits_dec x = (textual_representation 10 false x).length ∧
    ndigits_dec x = (Nat.repr x).length ∧
    ndigits_dec 0 = 1 ∧ 1 ≤ ndigits_dec x := by
  refine ⟨ndigits_dec_eq false x, ?_, ?_, ?_⟩
  · rw [repr_length_eq]; exact ndigits_dec_eq false x
  · rw [ndigits_dec_eq false 0]; rfl
  · rw [ndigits_dec_eq false x]; exact textual_representation_length_pos 10 false x

/-- C2: for every non-negative integer `x`, `ndigits_oct x` is the length of the standard
base-8 representation of `x` and `ndigits_hex x` the length of the standard base-16
representation (of either letter case); both are 1 for `x = 0`, and `ndigits_oct 7 = 1`,
`ndigits_oct 8 = 2`, `ndigits_hex 255 = 2`. -/
theorem C2_ndigits_oct_hex (x : Nat) (upper : Bool) :
    ndigits_oct x = (textual_representation 8 false x).length ∧
    ndigits_hex x = (textual_representation 16 upper x).length ∧
    ndigits_oct x = (Nat.toDigits 8 x).length ∧
    ndigits_hex x = (Nat.toDigits 16 x).length ∧
    ndigits_oct 0 = 1 ∧ ndigits_hex 0 = 1 ∧
    ndigits_oct 7 = 1 ∧ ndigits_oct 8 = 2 ∧ ndigits_hex 255 = 2 := by
  refine ⟨ndigits_oct_eq false x, ndigits_hex_eq upper x, ?_, ?_, ?_, ?_, ?_, ?_, ?_⟩
  · rw [ndigits_oct_eq false x, ← toDigits_eq 8 (by omega) (by omega) x, List.length_map]
  · rw [ndigits_hex_eq false x, ← toDigits_eq 16 (by omega) (by omega) x, List.length_map]
  · simp [ndigits_oct, ndigits_oct_loop]
  · simp [ndigits_hex, ndigits_hex_loop]
  · simp [ndigits_oct, ndigits_oct_loop]
  · simp [ndigits_oct, ndigits_oct_loop]
  · simp [ndigits_hex, ndigits_hex_loop]

/-- C3: for every non-negative integer `x`, storage and cursor, `extract_digits_dec`
called with `n = ndigits_dec x` passes its assertion and leaves in `buf[0..n)` the
standard decimal representation of `x`, most-significant digit first; reading
`buf[0..n)` back in base 10 gives `x`. -/
theorem C3_extract_digits_dec (x : Nat) (buf : Buf) (p : Nat) :
    ∃ out, extract_digits_dec x buf p (ndigits_dec x) = some out ∧
      out.slice p (ndigits_dec x) = textual_representation 10 false x ∧
      out.slice p (ndigits_dec x) = (Nat.toDigits 10 x).map Char.toNat ∧
      parse_digits 10 (out.slice p (ndigits_dec x)) = some x := by
  obtain ⟨out, h1, h2, _⟩ := extract_digits_dec_spec x buf p
  refine ⟨out, h1, h2, ?_, ?_⟩
  · rw [h2, toDigits_eq 10 (by omega) (by omega) x]
  · rw [h2]; exact parse_digits_textual_representation 10 false (by omega) (by omega) x

/-- C4: for every non-negative integer `x` and either letter case, `extract_digits_oct`
with `n = ndigits_oct x` and `extract_digits_hex` with `n = ndigits_hex x` pass their
assertion and store in `buf[0..n)` only characters of the alphabet of the base (`0`-`7`;
`0`-`9` with `A`-`F` when `upper`, with `a`-`f` otherwise), namely the standard
representation; reading `buf[0..n)` back in base 8, in base 16, gives `x`. 255 in
upper-case base 16 is `FF`, 8 in base 8 is `10`. -/
theorem C4_extract_digits_oct_hex (x : Nat) (upper : Bool) (buf : Buf) (p : Nat) :
    (∃ out, extract_digits_oct x buf p (ndigits_oct x) = some out ∧
      out.slice p (ndigits_oct x) = textual_representation 8 false x ∧
      (∀ c ∈ out.slice p (ndigits_oct x), is_oct_char c) ∧
      parse_digits 8 (out.slice p (ndigits_oct x)) = some x) ∧
    (∃ out, extract_digits_hex x upper buf p (ndigits_hex x) = some out ∧
      out.slice p (ndigits_hex x) = textual_representation 16 upper x ∧
      (∀ c ∈ out.slice p (ndigits_hex x), is_hex_char upper c) ∧
      parse_digits 16 (out.slice p (ndigits_hex x)) = some x) ∧
    (∃ out, extract_digits_hex 255 true buf 0 (ndigits_hex 255) = some out ∧
      out.slice 0 (ndigits_hex 255) = codes "FF") ∧
    (∃ out, extract_digits_oct 8 buf 0 (ndigits_oct 8) = some out ∧
      out.slice 0 (ndigits_oct 8) = codes "10") := by
  refine ⟨?_, ?_, ?_, ?_⟩
  · obtain ⟨out, h1, h2, _⟩ := extract_digits_oct_spec x buf p
    refine ⟨out, h1, h2, ?_, ?_⟩
    · rw [h2]; exact fun c hc => textual_representation_oct_chars false x c hc
    · rw [h2]; exact parse_digits_textual_representation 8 false (by omega) (by omega) x
  · obtain ⟨out, h1, h2, _⟩ := extract_digits_hex_spec x upper buf p
    refine ⟨out, h1, h2, ?_, ?_⟩
    · rw [h2]; exact fun c hc => textual_representation_hex_chars upper x c hc
    · rw [h2]; exact parse_digits_textual_representation 16 upper (by omega) (by omega) x
  · obtain ⟨out, h1, h2, _⟩ := extract_digits_hex_spec 255 true buf 0
    refine ⟨out, h1, ?_⟩
    rw [h2]
    simp [textual_representation, digit_char, codes]
  · obtain ⟨out, h1, h2, _⟩ := extract_digits_oct_spec 8 buf 0
    refine ⟨out, h1, ?_⟩
    rw [h2]
    simp [textual_representation, digit_char, codes]

/-- C5: for every value `x` of the `N`-bit signed type, `uabs x`, read as a natural
number, is the absolute value of `x`; for the least value `-2^(N-1)` it is `2^(N-1)`
(the negation being taken modulo `2^N`). For every value of an unsigned type `uabs`
returns the value itself. -/
theorem C5_uabs (N : Nat) (hN : 1 ≤ N) :
    (∀ x : Int, -(2 : Int) ^ (N - 1) ≤ x → x < (2 : Int) ^ (N - 1) →
      ((uabs ⟨N, true⟩ x : Nat) : Int) = |x|) ∧
    uabs ⟨N, true⟩ (-(2 : Int) ^ (N - 1)) = 2 ^ (N - 1) ∧
    (∀ x : Int, 0 ≤ x → x < (2 : Int) ^ N → ((uabs ⟨N, false⟩ x : Nat) : Int) = x) := by
  refine ⟨?_, ?_, ?_⟩
  · intro x hlo hhi
    have := uabs_eq_natAbs ⟨N, true⟩ x hN (by simp [IntType.holds]; exact ⟨hlo, hhi⟩)
    rw [this]
    exact Int.natCast_natAbs x
  · have hM : (0 : Int) < (2 : Int) ^ (N - 1) := by positivity
    have := uabs_eq_natAbs ⟨N, true⟩ (-(2 : Int) ^ (N - 1)) hN
      (by simp [IntType.holds])
    rw [this]
    simp [Int.natAbs_pow]
  · intro x h0 _
    simp [uabs, uabs_helper_unsigned_get, h0]

/-- C5, at the 8-bit types: `uabs (-128) = 128`. -/
theorem C5_uabs_witness :
    1 ≤ 8 ∧ uabs ⟨8, true⟩ (-(2 : Int) ^ (8 - 1)) = 2 ^ (8 - 1) :=
  ⟨by decide, (C5_uabs 8 (by decide)).2.1⟩

/-! ## Layout render: right-justified, narrow widths, capacity -/

theorem render_layout_narrow (x : Int) (h : int_render_helper) (showpos padzeros : Bool)
    (width : Nat) (left : Bool) (buf : Buf) (buf_len : Nat)
    (hw : width ≤ (if sign_char x showpos ≠ 0 then h.nd + 1 else h.nd)) :
    render_layout x h showpos padzeros width left buf buf_len
      = render x h showpos buf buf_len := by
  unfold render_layout render
  have hn : ¬ (width > (if sign_char x showpos ≠ 0 then h.nd + 1 else h.nd)) := by omega
  simp only [if_neg hn]

/-! ## The renders as they are called, where the negation is defined -/

theorem render_call_returned (N : Radix) (T : IntType) (x : Int) (upper showpos : Bool)
    (buf : Buf) (buf_len : Nat) (hdef : ¬ negation_overflows T x) (r : Nat × Buf)
    (h : render x (int_render_helper.make N T x upper) showpos buf buf_len = some r) :
    render_call N T x upper showpos buf buf_len = Outcome.returned r := by
  unfold render_call
  rw [if_neg hdef, h]
  rfl

theorem render_layout_call_returned (N : Radix) (T : IntType) (x : Int)
    (upper showpos padzeros : Bool) (width : Nat) (left : Bool) (buf : Buf) (buf_len : Nat)
    (hdef : ¬ negation_overflows T x) (r : Nat × Buf)
    (h : render_layout x (int_render_helper.make N T x upper) showpos padzeros width left
      buf buf_len = some r) :
    render_layout_call N T x upper showpos padzeros width left buf buf_len
      = Outcome.returned r := by
  unfold render_layout_call
  rw [if_neg hdef, h]
  rfl

theorem render_call_undefined (N : Radix) (T : IntType) (x : Int) (upper showpos : Bool)
    (buf : Buf) (buf_len : Nat) (hov : negation_overflows T x) :
    render_call N T x upper showpos buf buf_len = Outcome.undefined := by
  unfold render_call
  rw [if_pos hov]

theorem render_layout_call_undefined (N : Radix) (T : IntType) (x : Int)
    (upper showpos padzeros : Bool) (width : Nat) (left : Bool) (buf : Buf) (buf_len : Nat)
    (hov : negation_overflows T x) :
    render_layout_call N T x upper showpos padzeros width left buf buf_len
      = Outcome.undefined := by
  unfold render_layout_call
  rw [if_pos hov]

/-- The least value of the 32-bit signed type is a value of the type, and its negation
overflows. -/
theorem int_min_overflows :
    IntType.holds ⟨32, true⟩ (-2147483648) ∧ negation_overflows ⟨32, true⟩ (-2147483648) := by
  constructor
  · decide
  · unfold negation_overflows INT_BITS
    decide

/-- The compact render, away from the overflow of the negation: with a capacity above the
length it returns `digit_count |x| + 1` if `x` is negative or the show-positive flag is
set, and `digit_count |x|` otherwise. -/
theorem render_call_length (N : Radix) (T : IntType) (x : Int) (upper showpos : Bool)
    (buf : Buf) (buf_len : Nat) (hN : 1 ≤ T.bits) (hx : T.holds x)
    (hdef : ¬ negation_overflows T x)
    (hcap : (if x < 0 ∨ showpos = true then digit_count N x.natAbs + 1
      else digit_count N x.natAbs) < buf_len) :
    ∃ out, render_call N T x upper showpos buf buf_len
      = Outcome.returned (if x < 0 ∨ showpos = true then digit_count N x.natAbs + 1
          else digit_count N x.natAbs, out) := by
  rw [← natural_length_eq N upper x showpos] at hcap ⊢
  obtain ⟨out, h, _⟩ := render_spec N T x upper showpos buf buf_len hN hx hcap
  exact ⟨out, render_call_returned N T x upper showpos buf buf_len hdef _ h⟩

/-- The compact render of `-42` of the 32-bit signed type in base 10 returns 3. -/
theorem render_call_length_example :
    ∃ out, render_call .dec ⟨32, true⟩ (-42) false false (fun _ => 0) 8
      = Outcome.returned (3, out) := by
  have h := render_call_length .dec ⟨32, true⟩ (-42) false false (fun _ => 0) 8
    (by decide) (by decide) (by unfold negation_overflows; decide)
    (by simp [digit_count, ndigits_dec, ndigits_dec_loop])
  simpa [digit_count, ndigits_dec, ndigits_dec_loop] using h

/-- The compact render, away from the overflow of the negation: when the capacity check
passes the storage holds exactly the sign (`-` if `x < 0`, `+` if `x ≥ 0` and
show-positive is set, none otherwise), then the standard representation of `|x|` in the
base, then the terminator, at the index equal to the length returned. -/
theorem render_call_text (N : Radix) (T : IntType) (x : Int) (upper showpos : Bool)
    (buf : Buf) (buf_len : Nat) (hN : 1 ≤ T.bits) (hx : T.holds x)
    (hdef : ¬ negation_overflows T x)
    (hcap : natural_length N upper x showpos < buf_len) :
    ∃ n out, render_call N T x upper showpos buf buf_len = Outcome.returned (n, out) ∧
      n = (sign_text x showpos ++ textual_representation N.toNat upper x.natAbs).length ∧
      out.slice 0 (n + 1)
        = sign_text x showpos ++ textual_representation N.toNat upper x.natAbs ++ [0] := by
  obtain ⟨out, h, hs, ht, _⟩ := render_spec N T x upper showpos buf buf_len hN hx hcap
  refine ⟨_, out, render_call_returned N T x upper showpos buf buf_len hdef _ h, ?_, ?_⟩
  · rw [← compact_text_length]; rfl
  · rw [Buf.slice_succ, hs, Nat.zero_add, ht]; rfl

/-- The examples of the compact render: 0 in base 10 gives `0`, 255 in upper-case base 16
gives `FF`, 8 in base 8 gives `10`. -/
theorem render_call_text_example :
    (∃ out, render_call .dec ⟨32, true⟩ 0 false false (fun _ => 1) 8
        = Outcome.returned (1, out) ∧ out.slice 0 2 = codes "0" ++ [0]) ∧
    (∃ out, render_call .hex ⟨32, true⟩ 255 true false (fun _ => 1) 8
        = Outcome.returned (2, out) ∧ out.slice 0 3 = codes "FF" ++ [0]) ∧
    (∃ out, render_call .oct ⟨32, true⟩ 8 false false (fun _ => 1) 8
        = Outcome.returned (2, out) ∧ out.slice 0 3 = codes "10" ++ [0]) := by
  refine ⟨?_, ?_, ?_⟩
  · obtain ⟨n, out, h, hn, hs⟩ := render_call_text .dec ⟨32, true⟩ 0 false false
      (fun _ => 1) 8 (by decide) (by decide) (by unfold negation_overflows; decide)
      (by simp [natural_length, digits_text, textual_representation])
    have e : n = 1 := by simpa [sign_text, textual_representation] using hn
    subst e
    exact ⟨out, h, by simpa [sign_text, textual_representation, codes] using hs⟩
  · obtain ⟨n, out, h, hn, hs⟩ := render_call_text .hex ⟨32, true⟩ 255 true false
      (fun _ => 1) 8 (by decide) (by decide) (by unfold negation_overflows; decide)
      (by simp [natural_length, digits_text, textual_representation, Radix.toNat])
    have e : n = 2 := by simpa [sign_text, textual_representation, Radix.toNat] using hn
    subst e
    exact ⟨out, h, by
      simpa [sign_text, textual_representation, codes, Radix.toNat, digit_char] using hs⟩
  · obtain ⟨n, out, h, hn, hs⟩ := render_call_text .oct ⟨32, true⟩ 8 false false
      (fun _ => 1) 8 (by decide) (by decide) (by unfold negation_overflows; decide)
      (by simp [natural_length, digits_text, textual_representation, Radix.toNat])
    have e : n = 2 := by simpa [sign_text, textual_representation, Radix.toNat] using hn
    subst e
    exact ⟨out, h, by
      simpa [sign_text, textual_representation, codes, Radix.toNat, digit_char] using hs⟩

/-- The layout render, away from the overflow of the negation: once past its capacity
check it returns `max width natural_length`, `natural_length` being the length the compact
render returns, and stores exactly that many characters before the terminator. -/
theorem render_layout_call_length (N : Radix) (T : IntType) (x : Int)
    (upper showpos padzeros : Bool) (width : Nat) (left : Bool) (buf : Buf) (buf_len : Nat)
    (hN : 1 ≤ T.bits) (hx : T.holds x) (hdef : ¬ negation_overflows T x)
    (hcap : natural_length N upper x showpos < buf_len) :
    ∃ nl out0 out,
      render_call N T x upper showpos buf buf_len = Outcome.returned (nl, out0) ∧
      render_layout_call N T x upper showpos padzeros width left buf buf_len
        = Outcome.returned (max width nl, out) ∧
      (∀ i, i < max width nl → out i ≠ 0) ∧ out (max width nl) = 0 := by
  obtain ⟨out0, h0, _⟩ := render_spec N T x upper showpos buf buf_len hN hx hcap
  obtain ⟨out, h, hs, ht, _⟩ :=
    render_layout_spec N T x upper showpos padzeros width left buf buf_len hN hx hcap
  refine ⟨_, out0, out, render_call_returned N T x upper showpos buf buf_len hdef _ h0,
    render_layout_call_returned N T x upper showpos padzeros width left buf buf_len hdef _ h,
    ?_, ht⟩
  intro i hi
  have hm := Buf.mem_slice out 0 _ i hi
  rw [hs, Nat.zero_add] at hm
  exact layout_text_ne_zero N upper x showpos padzeros width left _ hm

/-- The zero-padded layout, away from the overflow of the negation: for a width above the
natural length, with zero-pad set and left-justify clear, the storage holds the sign if
there is one, then exactly `width - natural_length` characters `0`, then the digits of
`|x|`, then the terminator. -/
theorem render_layout_call_padzeros (N : Radix) (T : IntType) (x : Int)
    (upper showpos : Bool) (width : Nat) (buf : Buf) (buf_len : Nat) (hN : 1 ≤ T.bits)
    (hx : T.holds x) (hdef : ¬ negation_overflows T x)
    (hcap : natural_length N upper x showpos < buf_len)
    (hw : natural_length N upper x showpos < width) :
    ∃ out, render_layout_call N T x upper showpos true width false buf buf_len
        = Outcome.returned (width, out) ∧
      out.slice 0 (width + 1)
        = sign_text x showpos
          ++ List.replicate (width - natural_length N upper x showpos) 48
          ++ textual_representation N.toNat upper x.natAbs ++ [0] := by
  obtain ⟨out, h, hs, ht, _⟩ :=
    render_layout_spec N T x upper showpos true width false buf buf_len hN hx hcap
  have hmax : max width (natural_length N upper x showpos) = width := by omega
  rw [hmax] at h hs ht
  refine ⟨out,
    render_layout_call_returned N T x upper showpos true width false buf buf_len hdef _ h, ?_⟩
  rw [Buf.slice_succ, hs, Nat.zero_add, ht]
  unfold layout_text
  rw [if_pos hw]
  rfl

/-- The example of the zero-padded layout: `-42` in base 10, width 6, is `-00042`. -/
theorem render_layout_call_padzeros_example :
    ∃ out, render_layout_call .dec ⟨32, true⟩ (-42) false false true 6 false (fun _ => 1) 8
        = Outcome.returned (6, out) ∧
      out.slice 0 7 = codes "-00042" ++ [0] := by
  obtain ⟨out, h, hs⟩ := render_layout_call_padzeros .dec ⟨32, true⟩ (-42) false false 6
    (fun _ => 1) 8 (by decide) (by decide) (by unfold negation_overflows; decide)
    (by simp [natural_length, digits_text, textual_representation, Radix.toNat])
    (by simp [natural_length, digits_text, textual_representation, Radix.toNat])
  refine ⟨out, h, ?_⟩
  rw [hs]
  simp [natural_length, digits_text, sign_text, textual_representation, codes, Radix.toNat,
    digit_char, List.replicate]

/-- The left-justified layout, away from the overflow of the negation: for a width above
the natural length, with left-justify set, the storage holds the sign if there is one,
then the digits of `|x|`, then exactly `width - natural_length` blanks, then the
terminator, whatever the zero-pad flag. -/
theorem render_layout_call_left (N : Radix) (T : IntType) (x : Int)
    (upper showpos padzeros : Bool) (width : Nat) (buf : Buf) (buf_len : Nat)
    (hN : 1 ≤ T.bits) (hx : T.holds x) (hdef : ¬ negation_overflows T x)
    (hcap : natural_length N upper x showpos < buf_len)
    (hw : natural_length N upper x showpos < width) :
    (∃ out, render_layout_call N T x upper showpos padzeros width true buf buf_len
        = Outcome.returned (width, out) ∧
      out.slice 0 (width + 1)
        = sign_text x showpos ++ textual_representation N.toNat upper x.natAbs
          ++ List.replicate (width - natural_length N upper x showpos) 32 ++ [0]) ∧
    render_layout_call N T x upper showpos true width true buf buf_len
      = render_layout_call N T x upper showpos false width true buf buf_len := by
  constructor
  · obtain ⟨out, h, hs, ht, _⟩ :=
      render_layout_spec N T x upper showpos padzeros width true buf buf_len hN hx hcap
    have hmax : max width (natural_length N upper x showpos) = width := by omega
    rw [hmax] at h hs ht
    refine ⟨out,
      render_layout_call_returned N T x upper showpos padzeros width true buf buf_len hdef _ h,
      ?_⟩
    rw [Buf.slice_succ, hs, Nat.zero_add, ht]
    unfold layout_text
    rw [if_pos hw]
    rfl
  · unfold render_layout_call
    rw [render_layout_left_padzeros x _ showpos true width buf buf_len]

/-- The right-justified layout, away from the overflow of the negation: for a width above
the natural length, with left-justify and zero-pad both clear, the storage holds exactly
`width - natural_length` blanks, then the sign if there is one, then the digits of `|x|`,
then the terminator. -/
theorem render_layout_call_right (N : Radix) (T : IntType) (x : Int) (upper showpos : Bool)
    (width : Nat) (buf : Buf) (buf_len : Nat) (hN : 1 ≤ T.bits) (hx : T.holds x)
    (hdef : ¬ negation_overflows T x)
    (hcap : natural_length N upper x showpos < buf_len)
    (hw : natural_length N upper x showpos < width) :
    ∃ out, render_layout_call N T x upper showpos false width false buf buf_len
        = Outcome.returned (width, out) ∧
      out.slice 0 (width + 1)
        = List.replicate (width - natural_length N upper x showpos) 32
          ++ sign_text x showpos
          ++ textual_representation N.toNat upper x.natAbs ++ [0] := by
  obtain ⟨out, h, hs, ht, _⟩ :=
    render_layout_spec N T x upper showpos false width false buf buf_len hN hx hcap
  have hmax : max width (natural_length N upper x showpos) = width := by omega
  rw [hmax] at h hs ht
  refine ⟨out,
    render_layout_call_returned N T x upper showpos false width false buf buf_len hdef _ h,
    ?_⟩
  rw [Buf.slice_succ, hs, Nat.zero_add, ht]
  unfold layout_text
  rw [if_pos hw]
  rfl

/-- The narrow widths, away from the overflow of the negation: for a width not above the
natural length the layout render has the outcome of the compact render with the same
value and show-positive flag, the value returned and the storage alike. -/
theorem render_layout_call_narrow (N : Radix) (T : IntType) (x : Int)
    (upper showpos padzeros : Bool) (width : Nat) (left : Bool) (buf : Buf) (buf_len : Nat)
    (hN : 1 ≤ T.bits) (hx : T.holds x) (hdef : ¬ negation_overflows T x)
    (hw : width ≤ natural_length N upper x showpos) :
    render_layout_call N T x upper showpos padzeros width left buf buf_len
      = render_call N T x upper showpos buf buf_len := by
  unfold render_layout_call render_call
  rw [if_neg hdef, if_neg hdef]
  congr 1
  apply render_layout_narrow
  rw [render_flen N T x upper showpos hN hx]
  exact hw

/-- The example of the narrow widths: 123 in base 10 with width 2 is `123`, of length 3,
from both renders. -/
theorem render_layout_call_narrow_example :
    ∃ out, render_layout_call .dec ⟨32, true⟩ 123 false false false 2 false (fun _ => 1) 8
        = Outcome.returned (3, out) ∧
      render_call .dec ⟨32, true⟩ 123 false false (fun _ => 1) 8 = Outcome.returned (3, out) ∧
      out.slice 0 4 = codes "123" ++ [0] := by
  have hdef : ¬ negation_overflows ⟨32, true⟩ 123 := by unfold negation_overflows; decide
  have e := render_layout_call_narrow .dec ⟨32, true⟩ 123 false false false 2 false
    (fun _ => 1) 8 (by decide) (by decide) hdef
    (by simp [natural_length, digits_text, textual_representation, Radix.toNat])
  obtain ⟨out, h, hs, ht, _⟩ := render_spec .dec ⟨32, true⟩ 123 false false (fun _ => 1) 8
    (by decide) (by decide)
    (by simp [natural_length, digits_text, textual_representation, Radix.toNat])
  have hn : natural_length .dec false 123 false = 3 := by
    simp [natural_length, digits_text, textual_representation, Radix.toNat]
  rw [hn] at h hs ht
  have hc := render_call_returned .dec ⟨32, true⟩ 123 false false (fun _ => 1) 8 hdef _ h
  refine ⟨out, by rw [e]; exact hc, hc, ?_⟩
  rw [Buf.slice_succ, hs, Nat.zero_add, ht]
  simp [compact_text, digits_text, sign_text, textual_representation, codes, Radix.toNat,
    digit_char]

/-- The capacity of the compact render, away from the overflow of the negation: the
assertion fails if and only if `buf_len ≤ natural_length`; when it passes, the indices `0`
to `natural_length` are stored (the sign, the digits, the terminator last, whatever the
storage held), all of them below `buf_len`, and every other position is left as it was. -/
theorem render_call_capacity (N : Radix) (T : IntType) (x : Int) (upper showpos : Bool)
    (buf : Buf) (buf_len : Nat) (hN : 1 ≤ T.bits) (hx : T.holds x)
    (hdef : ¬ negation_overflows T x) :
    (render_call N T x upper showpos buf buf_len = Outcome.aborted
      ↔ buf_len ≤ natural_length N upper x showpos) ∧
    (natural_length N upper x showpos < buf_len →
      ∃ out, render_call N T x upper showpos buf buf_len
          = Outcome.returned (natural_length N upper x showpos, out) ∧
        out.slice 0 (natural_length N upper x showpos + 1)
          = compact_text N upper x showpos ++ [0] ∧
        (∀ j, j ≤ natural_length N upper x showpos → j < buf_len) ∧
        (∀ j, natural_length N upper x showpos < j → out j = buf j)) := by
  constructor
  · constructor
    · intro hab
      by_contra hc
      obtain ⟨out, h, _⟩ := render_spec N T x upper showpos buf buf_len hN hx (by omega)
      rw [render_call_returned N T x upper showpos buf buf_len hdef _ h] at hab
      exact Outcome.noConfusion hab
    · intro hcap
      unfold render_call
      rw [if_neg hdef, render_abort N T x upper showpos buf buf_len hN hx hcap]
      rfl
  · intro hcap
    obtain ⟨out, h, hs, ht, hu⟩ := render_spec N T x upper showpos buf buf_len hN hx hcap
    refine ⟨out, render_call_returned N T x upper showpos buf buf_len hdef _ h, ?_,
      fun j hj => by omega, hu⟩
    rw [Buf.slice_succ, hs, Nat.zero_add, ht]

/-- The example of the capacity: the compact render of `-42` in base 10 aborts with the
capacity 3 and stores `-42` and the terminator with the capacity 4. -/
theorem render_call_capacity_example :
    render_call .dec ⟨32, true⟩ (-42) false false (fun _ => 1) 3 = Outcome.aborted ∧
    ∃ out, render_call .dec ⟨32, true⟩ (-42) false false (fun _ => 1) 4
        = Outcome.returned (3, out) ∧ out.slice 0 4 = codes "-42" ++ [0] := by
  have hdef : ¬ negation_overflows ⟨32, true⟩ (-42) := by unfold negation_overflows; decide
  have hn : natural_length .dec false (-42) false = 3 := by
    simp [natural_length, digits_text, textual_representation, Radix.toNat]
  have h3 := render_call_capacity .dec ⟨32, true⟩ (-42) false false (fun _ => 1) 3
    (by decide) (by decide) hdef
  have h4 := render_call_capacity .dec ⟨32, true⟩ (-42) false false (fun _ => 1) 4
    (by decide) (by decide) hdef
  rw [hn] at h3 h4
  refine ⟨h3.1.mpr (by decide), ?_⟩
  obtain ⟨out, h, hs, _⟩ := h4.2 (by decide)
  refine ⟨out, h, ?_⟩
  rw [hs]
  simp [compact_text, digits_text, sign_text, textual_representation, codes, Radix.toNat,
    digit_char]

/-! ## The renders at the least value of a signed type -/

theorem natAbs_int_min : Int.natAbs (-2147483648) = 2147483648 := rfl

theorem textual_representation_int_min :
    textual_representation 10 false 2147483648 = codes "2147483648" := by
  simp [textual_representation, digit_char, codes]

theorem digit_count_int_min : digit_count .dec (Int.natAbs (-2147483648)) = 10 := by
  rw [natAbs_int_min]
  show ndigits_dec 2147483648 = 10
  rw [ndigits_dec_eq false, textual_representation_int_min]
  rfl

theorem natural_length_int_min : natural_length .dec false (-2147483648) false = 11 := by
  rw [natural_length_eq, if_pos (Or.inl (by norm_num)), digit_count_int_min]

/-- C6 (what the code does): at `-2147483648`, the least value of the 32-bit signed type,
the constructor of the helper negates `x` in the signed type, which overflows: the compact
render has no defined outcome, where the claim has it return `digit_count |x| + 1 = 11`. -/
theorem C6_render_length_undefined :
    IntType.holds ⟨32, true⟩ (-2147483648) ∧
    render_call .dec ⟨32, true⟩ (-2147483648) false false (fun _ => 1) 16
      = Outcome.undefined ∧
    digit_count .dec (Int.natAbs (-2147483648)) + 1 = 11 := by
  refine ⟨int_min_overflows.1, render_call_undefined _ _ _ _ _ _ _ int_min_overflows.2, ?_⟩
  rw [digit_count_int_min]

/-- C7 (what the code does): at `-2147483648` of the 32-bit signed type the negation in
the constructor of the helper overflows and the compact render has no defined outcome,
where the claim has the storage hold `-2147483648`. -/
theorem C7_render_text_undefined :
    IntType.holds ⟨32, true⟩ (-2147483648) ∧
    render_call .dec ⟨32, true⟩ (-2147483648) false true (fun _ => 1) 16
      = Outcome.undefined ∧
    sign_text (-2147483648) true
        ++ textual_representation 10 false (Int.natAbs (-2147483648))
      = codes "-2147483648" := by
  refine ⟨int_min_overflows.1, render_call_undefined _ _ _ _ _ _ _ int_min_overflows.2, ?_⟩
  rw [natAbs_int_min, textual_representation_int_min]
  unfold sign_text
  rw [if_pos (by norm_num)]
  rfl

/-- C8 (what the code does): at `-2147483648` of the 32-bit signed type the negation in
the constructor of the helper overflows and the layout render has no defined outcome,
where the claim has it return `max 20 11 = 20`. -/
theorem C8_render_layout_length_undefined :
    IntType.holds ⟨32, true⟩ (-2147483648) ∧
    render_layout_call .dec ⟨32, true⟩ (-2147483648) false false false 20 false
      (fun _ => 1) 32 = Outcome.undefined ∧
    max 20 (natural_length .dec false (-2147483648) false) = 20 := by
  refine ⟨int_min_overflows.1,
    render_layout_call_undefined _ _ _ _ _ _ _ _ _ _ int_min_overflows.2, ?_⟩
  rw [natural_length_int_min]
  decide

/-- C9 (what the code does): at `-2147483648` of the 32-bit signed type the negation in
the constructor of the helper overflows and the zero-padded layout render of width 16 has
no defined outcome, where the claim has the storage hold `-000002147483648`. -/
theorem C9_render_layout_padzeros_undefined :
    IntType.holds ⟨32, true⟩ (-2147483648) ∧
    render_layout_call .dec ⟨32, true⟩ (-2147483648) false false true 16 false
      (fun _ => 1) 32 = Outcome.undefined ∧
    sign_text (-2147483648) false
        ++ List.replicate (16 - natural_length .dec false (-2147483648) false) 48
        ++ textual_representation 10 false (Int.natAbs (-2147483648))
      = codes "-000002147483648" := by
  refine ⟨int_min_overflows.1,
    render_layout_call_undefined _ _ _ _ _ _ _ _ _ _ int_min_overflows.2, ?_⟩
  rw [natural_length_int_min, natAbs_int_min, textual_representation_int_min]
  unfold sign_text
  rw [if_pos (by norm_num)]
  rfl

/-- C10 (what the code does): at `-2147483648` of the 32-bit signed type the negation in
the constructor of the helper overflows and the left-justified layout render of width 16
has no defined outcome, where the claim has the storage hold `-2147483648` and five
blanks. -/
theorem C10_render_layout_left_undefined :
    IntType.holds ⟨32, true⟩ (-2147483648) ∧
    render_layout_call .dec ⟨32, true⟩ (-2147483648) false false true 16 true
      (fun _ => 1) 32 = Outcome.undefined ∧
    sign_text (-2147483648) false
        ++ textual_representation 10 false (Int.natAbs (-2147483648))
        ++ List.replicate (16 - natural_length .dec false (-2147483648) false) 32
      = codes "-2147483648     " := by
  refine ⟨int_min_overflows.1,
    render_layout_call_undefined _ _ _ _ _ _ _ _ _ _ int_min_overflows.2, ?_⟩
  rw [natural_length_int_min, natAbs_int_min, textual_representation_int_min]
  unfold sign_text
  rw [if_pos (by norm_num)]
  rfl

/-- C11 (what the code does): at `-2147483648` of the 32-bit signed type the negation in
the constructor of the helper overflows and the right-justified layout render of width 16
has no defined outcome, where the claim has the storage hold five blanks and
`-2147483648`. -/
theorem C11_render_layout_right_undefined :
    IntType.holds ⟨32, true⟩ (-2147483648) ∧
    render_layout_call .dec ⟨32, true⟩ (-2147483648) false false false 16 false
      (fun _ => 1) 32 = Outcome.undefined ∧
    List.replicate (16 - natural_length .dec false (-2147483648) false) 32
        ++ sign_text (-2147483648) false
        ++ textual_representation 10 false (Int.natAbs (-2147483648))
      = codes "     -2147483648" := by
  refine ⟨int_min_overflows.1,
    render_layout_call_undefined _ _ _ _ _ _ _ _ _ _ int_min_overflows.2, ?_⟩
  rw [natural_length_int_min, natAbs_int_min, textual_representation_int_min]
  unfold sign_text
  rw [if_pos (by norm_num)]
  rfl

/-- C13 (what the code does): the layout render of 1 in base 10 with width 10 and a
declared capacity of 2 passes the capacity check, returns 10, and stores nine blanks, the
digit and the terminator at the indices 0 to 10, nine of them at or beyond the declared
capacity. -/
theorem C13_render_layout_overflow :
    ∃ out, render_layout 1 (int_render_helper.make .dec ⟨32, true⟩ 1 false) false false 10
        false (fun _ => 1) 2 = some (10, out) ∧
      out.slice 0 11 = codes "         1" ++ [0] ∧
      ¬ (max 10 (natural_length .dec false 1 false) < 2) := by
  have hn : natural_length .dec false 1 false = 1 := by
    simp [natural_length, digits_text, textual_representation, Radix.toNat]
  obtain ⟨out, h, hs, ht, _⟩ := render_layout_spec .dec ⟨32, true⟩ 1 false false false 10
    false (fun _ => 1) 2 (by decide) (by decide) (by rw [hn]; decide)
  rw [hn] at h hs ht
  have hmax : max 10 1 = 10 := by decide
  rw [hmax] at h hs ht
  refine ⟨out, h, ?_, by rw [hn]; decide⟩
  rw [Buf.slice_succ, hs, Nat.zero_add, ht]
  simp [layout_text, natural_length, compact_text, digits_text, sign_text,
    textual_representation, codes, Radix.toNat, digit_char, List.replicate]

/-- C14 (what the code does): at `-2147483648` of the 32-bit signed type and the capacity
12, above the natural length 11, the negation in the constructor of the helper overflows
and the compact render has no defined outcome, where the claim has the assertion pass and
the indices 0 to 11 stored. -/
theorem C14_render_capacity_undefined :
    IntType.holds ⟨32, true⟩ (-2147483648) ∧
    natural_length .dec false (-2147483648) false < 12 ∧
    render_call .dec ⟨32, true⟩ (-2147483648) false false (fun _ => 1) 12
      = Outcome.undefined := by
  refine ⟨int_min_overflows.1, ?_, render_call_undefined _ _ _ _ _ _ _ int_min_overflows.2⟩
  rw [natural_length_int_min]
  decide

/-! ## The extractors with any digit count -/

/-- Without room for all the digits the loop ends on the cursor 0 with more than one
digit left. -/
theorem extract_loop_short (b : Nat) (u : Bool) (ch : Nat → Nat) (p : Nat) (hb : 1 < b) :
    ∀ (m x : Nat) (buf : Buf), m + 1 < (textual_representation b u x).length →
      b ≤ (extract_loop b ch p m x buf).x := by
  intro m
  induction m with
  | zero =>
    intro x buf hlen
    simp only [extract_loop]
    by_contra hc
    have := textual_representation_length_small b u x (by omega)
    omega
  | succ m ih =>
    intro x buf hlen
    have hx : b ≤ x := by
      by_contra hc
      have := textual_representation_length_small b u x (by omega)
      omega
    have hl := textual_representation_length_step b u x hb hx
    simp only [extract_loop, if_pos hx]
    exact ih (x / b) _ (by omega)

/-- The common statement of the three extractors for a digit count `n ≥ 1`, on the
common loop with `m = n - 1`: the last value is a single digit exactly when `n` is at
least the number `L` of digits of `x`; then the cursor ends on `n - L`, the representation
stands in `[p + n - L, p + n)` and nothing else has changed. -/
theorem extract_loop_general (b : Nat) (u : Bool) (ch : Nat → Nat) (p : Nat) (hb : 1 < b)
    (hch : ∀ d, d < b → ch d = digit_char u d) (x n : Nat) (buf : Buf) (hn : 1 ≤ n) :
    ((extract_loop b ch p (n - 1) x buf).x < b ↔ (textual_representation b u x).length ≤ n) ∧
    ((textual_representation b u x).length ≤ n →
      (extract_loop b ch p (n - 1) x buf).m = n - (textual_representation b u x).length ∧
      Buf.slice ((extract_loop b ch p (n - 1) x buf).buf.write
          (p + (extract_loop b ch p (n - 1) x buf).m)
          (ch (extract_loop b ch p (n - 1) x buf).x))
        (p + (n - (textual_representation b u x).length))
        (textual_representation b u x).length = textual_representation b u x ∧
      ∀ j, (j < p + (n - (textual_representation b u x).length) ∨ p + n ≤ j) →
        ((extract_loop b ch p (n - 1) x buf).buf.write
          (p + (extract_loop b ch p (n - 1) x buf).m)
          (ch (extract_loop b ch p (n - 1) x buf).x)) j = buf j) := by
  have hpass : (textual_representation b u x).length ≤ n →
      (extract_loop b ch p (n - 1) x buf).x < b ∧
      (extract_loop b ch p (n - 1) x buf).m = n - (textual_representation b u x).length ∧
      Buf.slice ((extract_loop b ch p (n - 1) x buf).buf.write
          (p + (extract_loop b ch p (n - 1) x buf).m)
          (ch (extract_loop b ch p (n - 1) x buf).x))
        (p + (n - (textual_representation b u x).length))
        (textual_representation b u x).length = textual_representation b u x ∧
      ∀ j, (j < p + (n - (textual_representation b u x).length) ∨ p + n ≤ j) →
        ((extract_loop b ch p (n - 1) x buf).buf.write
          (p + (extract_loop b ch p (n - 1) x buf).m)
          (ch (extract_loop b ch p (n - 1) x buf).x)) j = buf j := by
    intro hl
    obtain ⟨h1, h2, h3, h4⟩ := extract_loop_spec b u ch p hb hch (n - 1) x buf (by omega)
    have hm : (extract_loop b ch p (n - 1) x buf).m
        = n - (textual_representation b u x).length := by omega
    rw [hm] at h3 h4
    rw [hm]
    exact ⟨h1, rfl, h3, fun j hj => h4 j (by omega)⟩
  constructor
  · constructor
    · intro hlt
      by_contra hc
      have := extract_loop_short b u ch p hb (n - 1) x buf (by omega)
      omega
    · intro hl
      exact (hpass hl).1
  · intro hl
    exact (hpass hl).2

theorem extract_digits_dec_general (x : Nat) (buf : Buf) (p n : Nat) (hn : 1 ≤ n) :
    (extract_digits_dec x buf p n = none ↔ n < ndigits_dec x) ∧
    (ndigits_dec x ≤ n →
      ∃ out, extract_digits_dec x buf p n = some out ∧
        out.slice (p + (n - ndigits_dec x)) (ndigits_dec x) = textual_representation 10 false x ∧
        ∀ j, (j < p + (n - ndigits_dec x) ∨ p + n ≤ j) → out j = buf j) := by
  obtain ⟨hiff, hpass⟩ := extract_loop_general 10 false dec_digit p (by omega)
    (fun d hd => dec_digit_eq false d hd) x n buf hn
  rw [← ndigits_dec_eq false x] at hiff hpass
  unfold extract_digits_dec
  rw [size_sub_one n hn]
  simp only [extract_digits_dec_loop_eq]
  constructor
  · by_cases hl : ndigits_dec x ≤ n
    · have h1 := hiff.mpr hl
      simp only [CLUE_ASSERT, if_pos h1, bind, Option.bind, pure]
      constructor
      · intro h; exact Option.noConfusion h
      · intro h; omega
    · have h1 : ¬ (extract_loop 10 dec_digit p (n - 1) x buf).x < 10 := fun h => hl (hiff.mp h)
      simp only [CLUE_ASSERT, if_neg h1, bind, Option.bind]
      exact ⟨fun _ => by omega, fun _ => trivial⟩
  · intro hl
    have h1 := hiff.mpr hl
    obtain ⟨_, h3, h4⟩ := hpass hl
    refine ⟨_, ?_, h3, h4⟩
    simp only [CLUE_ASSERT, if_pos h1, bind, Option.bind, pure]
    rfl

theorem extract_digits_oct_general (x : Nat) (buf : Buf) (p n : Nat) (hn : 1 ≤ n) :
    (extract_digits_oct x buf p n = none ↔ n < ndigits_oct x) ∧
    (ndigits_oct x ≤ n →
      ∃ out, extract_digits_oct x buf p n = some out ∧
        out.slice (p + (n - ndigits_oct x)) (ndigits_oct x) = textual_representation 8 false x ∧
        ∀ j, (j < p + (n - ndigits_oct x) ∨ p + n ≤ j) → out j = buf j) := by
  obtain ⟨hiff, hpass⟩ := extract_loop_general 8 false dec_digit p (by omega)
    (fun d hd => dec_digit_eq false d (by omega)) x n buf hn
  rw [← ndigits_oct_eq false x] at hiff hpass
  unfold extract_digits_oct
  rw [size_sub_one n hn]
  simp only [extract_digits_oct_loop_eq]
  constructor
  · by_cases hl : ndigits_oct x ≤ n
    · have h1 := hiff.mpr hl
      simp only [CLUE_ASSERT, if_pos h1, bind, Option.bind, pure]
      constructor
      · intro h; exact Option.noConfusion h
      · intro h; omega
    · have h1 : ¬ (extract_loop 8 dec_digit p (n - 1) x buf).x < 8 := fun h => hl (hiff.mp h)
      simp only [CLUE_ASSERT, if_neg h1, bind, Option.bind]
      exact ⟨fun _ => by omega, fun _ => trivial⟩
  · intro hl
    have h1 := hiff.mpr hl
    obtain ⟨_, h3, h4⟩ := hpass hl
    refine ⟨_, ?_, h3, h4⟩
    simp only [CLUE_ASSERT, if_pos h1, bind, Option.bind, pure]
    rfl

theorem extract_digits_hex_general (x : Nat) (upper : Bool) (buf : Buf) (p n : Nat)
    (hn : 1 ≤ n) :
    (extract_digits_hex x upper buf p n = none ↔ n < ndigits_hex x) ∧
    (ndigits_hex x ≤ n →
      ∃ out, extract_digits_hex x upper buf p n = some out ∧
        out.slice (p + (n - ndigits_hex x)) (ndigits_hex x)
          = textual_representation 16 upper x ∧
        ∀ j, (j < p + (n - ndigits_hex x) ∨ p + n ≤ j) → out j = buf j) := by
  obtain ⟨hiff, hpass⟩ := extract_loop_general 16 upper
    (hex_digit (if upper then CH_A else CH_a)) p (by omega)
    (fun d hd => hex_digit_eq upper d hd) x n buf hn
  rw [← ndigits_hex_eq upper x] at hiff hpass
  unfold extract_digits_hex
  rw [size_sub_one n hn]
  simp only [extract_digits_hex_loop_eq]
  constructor
  · by_cases hl : ndigits_hex x ≤ n
    · have h1 := hiff.mpr hl
      simp only [CLUE_ASSERT, if_pos h1, bind, Option.bind, pure]
      constructor
      · intro h; exact Option.noConfusion h
      · intro h; omega
    · have h1 : ¬ (extract_loop 16 (hex_digit (if upper then CH_A else CH_a)) p
          (n - 1) x buf).x < 16 := fun h => hl (hiff.mp h)
      simp only [CLUE_ASSERT, if_neg h1, bind, Option.bind]
      exact ⟨fun _ => by omega, fun _ => trivial⟩
  · intro hl
    have h1 := hiff.mpr hl
    obtain ⟨_, h3, h4⟩ := hpass hl
    refine ⟨_, ?_, h3, h4⟩
    simp only [CLUE_ASSERT, if_pos h1, bind, Option.bind, pure]
    rfl

/-! ## The format-string composer -/

theorem write_emits (buf : Buf) (p v : Nat) : Emits buf p (buf.write p v) (p + 1) [v] := by
  refine ⟨rfl, ?_, ?_⟩
  · show (buf.write p v).slice p 1 = [v]
    rw [Buf.slice_one, Buf.write_same]
  · intro j hj
    exact Buf.write_other _ _ _ _ (by omega)

theorem Emits.terminate_at (buf out : Buf) (b q : Nat) (text : List Nat)
    (h : Emits buf b out q text) :
    q = b + text.length ∧
      (out.write q CH_NUL).slice b (text.length + 1) = text ++ [0] ∧
      ∀ j, (j < b ∨ q < j) → (out.write q CH_NUL) j = buf j := by
  obtain ⟨hq, hs, hu⟩ := h
  subst hq
  refine ⟨rfl, ?_, ?_⟩
  · rw [Buf.slice_succ, Buf.write_same,
      Buf.slice_congr (out.write (b + text.length) CH_NUL) out b text.length
        (fun j _ hj => Buf.write_other _ _ _ _ (by omega)), hs]
    rfl
  · intro j hj
    rw [Buf.write_other _ _ _ _ (by omega)]
    exact hu j (by omega)

theorem ndigits_dec_small (w : Nat) (hw : w < 1000) :
    ndigits_dec w = if w < 10 then 1 else if w < 100 then 2 else 3 := by
  rw [ndigits_dec_eq false w, dec_length_tail false w (by omega)]
  split_ifs <;> rfl

theorem extract_digits_dec_emits (x : Nat) (buf : Buf) (p : Nat) :
    ∃ out, extract_digits_dec x buf p (ndigits_dec x) = some out ∧
      Emits buf p out (p + ndigits_dec x) (textual_representation 10 false x) := by
  obtain ⟨out, h1, h2, h3⟩ := extract_digits_dec_spec x buf p
  have hn := ndigits_dec_eq false x
  refine ⟨out, h1, ?_, ?_, h3⟩
  · rw [hn]
  · rw [← hn]; exact h2

theorem cfmt_write_sign_emits (s : Buf × Nat) (showpos : Bool) :
    Emits s.1 s.2 (cfmt_write_sign s showpos).1 (cfmt_write_sign s showpos).2
      (if showpos then [43] else []) := by
  unfold cfmt_write_sign
  cases showpos
  · exact Emits.nil s.1 s.2
  · exact write_emits s.1 s.2 43

theorem cfmt_write_width_emits (s : Buf × Nat) (width : Nat) (left padzeros : Bool)
    (hw : width ≤ 999) :
    ∃ out q, cfmt_write_width s width left padzeros = some (out, q) ∧
      Emits s.1 s.2 out q
        (if width > 0 then
          (if left then [45] else if padzeros then [48] else [])
            ++ textual_representation 10 false width
        else []) := by
  unfold cfmt_write_width
  by_cases h0 : width > 0
  · simp only [if_pos h0]
    have hf : Emits s.1 s.2
        (if left then (s.1.write s.2 CH_MINUS, s.2 + 1)
          else if padzeros then (s.1.write s.2 CH_0, s.2 + 1) else s).1
        (if left then (s.1.write s.2 CH_MINUS, s.2 + 1)
          else if padzeros then (s.1.write s.2 CH_0, s.2 + 1) else s).2
        (if left then [45] else if padzeros then [48] else []) := by
      cases left
      · cases padzeros
        · exact Emits.nil s.1 s.2
        · exact write_emits s.1 s.2 48
      · exact write_emits s.1 s.2 45
    obtain ⟨out, h1, h2⟩ := extract_digits_dec_emits width
      (if left then (s.1.write s.2 CH_MINUS, s.2 + 1)
        else if padzeros then (s.1.write s.2 CH_0, s.2 + 1) else s).1
      (if left then (s.1.write s.2 CH_MINUS, s.2 + 1)
        else if padzeros then (s.1.write s.2 CH_0, s.2 + 1) else s).2
    rw [ndigits_dec_small width (by omega)] at h1 h2
    refine ⟨out, _, ?_, Emits.append _ _ _ _ _ _ _ _ hf h2⟩
    simp only [h1, bind, Option.bind, pure]
  · simp only [if_neg h0]
    exact ⟨s.1, s.2, rfl, Emits.nil s.1 s.2⟩

theorem cfmt_write_precision_emits (s : Buf × Nat) (prec : Nat) (hp : prec ≤ 99) :
    ∃ out q, cfmt_write_precision s prec = some (out, q) ∧
      Emits s.1 s.2 out q ([46] ++ textual_representation 10 false prec) := by
  unfold cfmt_write_precision
  have hd := write_emits s.1 s.2 CH_DOT
  obtain ⟨out, h1, h2⟩ := extract_digits_dec_emits prec (s.1.write s.2 CH_DOT) (s.2 + 1)
  have hn : ndigits_dec prec = if prec < 10 then 1 else 2 := by
    rw [ndigits_dec_small prec (by omega)]
    split_ifs <;> first | rfl | omega
  rw [hn] at h1 h2
  refine ⟨out, _, ?_, Emits.append _ _ _ _ _ _ _ _ hd h2⟩
  simp only [h1, bind, Option.bind, pure]

theorem float_cfmt_impl_body_spec (buf : Buf) (b fsym width prec : Nat)
    (left showpos padzeros : Bool) (hw : width ≤ 999) (hp : prec ≤ 99) :
    ∃ out, float_cfmt_impl_body buf b fsym width prec left showpos padzeros
        = some (b + (cfmt_text fsym width prec left showpos padzeros).length, out) ∧
      out.slice b ((cfmt_text fsym width prec left showpos padzeros).length + 1)
        = cfmt_text fsym width prec left showpos padzeros ++ [0] ∧
      ∀ j, (j < b ∨ b + (cfmt_text fsym width prec left showpos padzeros).length < j) →
        out j = buf j := by
  have e0 := write_emits buf b CH_PERCENT
  have e1 := cfmt_write_sign_emits (buf.write b CH_PERCENT, b + 1) showpos
  obtain ⟨o2, q2, h2, e2⟩ := cfmt_write_width_emits
    (cfmt_write_sign (buf.write b CH_PERCENT, b + 1) showpos) width left padzeros hw
  obtain ⟨o3, q3, h3, e3⟩ := cfmt_write_precision_emits (o2, q2) prec hp
  have e4 := write_emits o3 q3 fsym
  have e := Emits.append _ _ _ _ _ _ _ _
    (Emits.append _ _ _ _ _ _ _ _
      (Emits.append _ _ _ _ _ _ _ _ (Emits.append _ _ _ _ _ _ _ _ e0 e1) e2) e3) e4
  obtain ⟨hq, t1, t2⟩ := Emits.terminate_at buf _ b _ _ e
  have htext : [CH_PERCENT] ++ (if showpos = true then [43] else [])
      ++ (if width > 0 then
          (if left = true then [45] else if padzeros = true then [48] else [])
            ++ textual_representation 10 false width
        else [])
      ++ ([46] ++ textual_representation 10 false prec) ++ [fsym]
      = cfmt_text fsym width prec left showpos padzeros := by
    unfold cfmt_text CH_PERCENT
    simp only [List.append_assoc]
  rw [htext] at hq t1
  refine ⟨_, ?_, t1, ?_⟩
  · unfold float_cfmt_impl_body
    simp only [h2, h3, bind, Option.bind, pure]
    rw [hq]
  · intro j hj
    exact t2 j (by omega)

theorem cfmt_text_length_le (fsym width prec : Nat) (left showpos padzeros : Bool)
    (hw : width ≤ 999) (hp : prec ≤ 99) :
    (cfmt_text fsym width prec left showpos padzeros).length ≤ 10 := by
  have h1 := ndigits_dec_small width (by omega)
  have h2 := ndigits_dec_small prec (by omega)
  rw [ndigits_dec_eq false] at h1 h2
  unfold cfmt_text
  simp only [List.length_append, List.length_singleton, List.length_cons, List.length_nil]
  rw [h2]
  by_cases h0 : width > 0
  · simp only [if_pos h0, List.length_append, h1]
    cases showpos <;> cases left <;> cases padzeros <;> simp <;> split_ifs <;> omega
  · simp only [if_neg h0]
    cases showpos <;> simp <;> split_ifs <;> omega

/-! ## The fixed-notation bound -/

theorem textual_representation_length_mono (b : Nat) (u : Bool) (hb : 1 < b) (n m : Nat)
    (h : n ≤ m) :
    (textual_representation b u n).length ≤ (textual_representation b u m).length := by
  by_cases hn : n = 0
  · subst hn
    rw [textual_representation_length_small b u 0 (by omega)]
    exact textual_representation_length_pos b u m
  · have hm : m ≠ 0 := by omega
    unfold textual_representation
    rw [if_neg hn, if_neg hm]
    simp only [List.length_map, List.length_reverse]
    exact Nat.le_digits_len_le b n m h

theorem floor_toNat_cast (y : ℚ) (hy : 0 ≤ y) : ((⌊y⌋.toNat : ℕ) : ℚ) = ((⌊y⌋ : ℤ) : ℚ) := by
  have h : 0 ≤ ⌊y⌋ := Int.floor_nonneg.mpr hy
  have e : ((⌊y⌋.toNat : ℕ) : ℤ) = ⌊y⌋ := Int.toNat_of_nonneg h
  rw [← Int.cast_natCast, e]

theorem round_half_even_le_add_half (y : ℚ) (hy : 0 ≤ y) :
    ((round_half_even y : ℕ) : ℚ) ≤ y + 1 / 2 := by
  have hf := Int.floor_le y
  have hc := floor_toNat_cast y hy
  unfold round_half_even
  split_ifs with h1 h2 h3
  · rw [hc]; linarith
  · push_cast; rw [hc]; linarith
  · rw [hc]; linarith
  · push_cast; rw [hc]; linarith

theorem round_half_even_le_of_le (y : ℚ) (hy : 0 ≤ y) (m : Nat) (hm : y ≤ (m : ℚ)) :
    round_half_even y ≤ m := by
  have hf := Int.floor_le y
  have hc := floor_toNat_cast y hy
  have hfm : ((⌊y⌋.toNat : ℕ) : ℚ) ≤ (m : ℚ) := by rw [hc]; linarith
  have hfm' : ⌊y⌋.toNat ≤ m := by exact_mod_cast hfm
  have hstrict : ¬ (y - ⌊y⌋ < 1 / 2) → ⌊y⌋.toNat + 1 ≤ m := by
    intro h
    have : ((⌊y⌋.toNat : ℕ) : ℚ) < (m : ℚ) := by rw [hc]; linarith
    have : ⌊y⌋.toNat < m := by exact_mod_cast this
    omega
  unfold round_half_even
  split_ifs with h1 h2 h3
  · exact hfm'
  · exact hstrict h1
  · exact hfm'
  · exact hstrict h1

theorem fixed_text_length (x : Double) (p : Nat) (plus_sign : Bool) :
    (fixed_text x p plus_sign).length
      = (if x.signbit = true ∨ plus_sign = true then 1 else 0)
        + (textual_representation 10 false
            (round_half_even (x.abs * 10 ^ p) / 10 ^ p)).length
        + (if p > 0 then p + 1 else 0) := by
  unfold fixed_text
  simp only [List.length_append]
  congr 1
  · congr 1
    cases x.signbit <;> cases plus_sign <;> simp
  · by_cases hp : p > 0
    · simp [hp]
    · simp [hp]

theorem fixed_integer_digits_le (floor_log10 : ℚ → Nat) (x : Double) (p : Nat)
    (h0 : 0 ≤ x.abs) (hx : x.abs < 9000000000000000000) :
    (textual_representation 10 false (round_half_even (x.abs * 10 ^ p) / 10 ^ p)).length
      ≤ (if x.abs < 19 / 2 then 1
          else if x.abs < 9000000000000000000 then ndigits_dec (⌈x.abs⌉.toNat % 2 ^ 64)
          else floor_log10 x.abs + 2) := by
  have hpow : (1 : ℚ) ≤ 10 ^ p := one_le_pow₀ (by norm_num)
  have hy : 0 ≤ x.abs * 10 ^ p := by positivity
  by_cases h1 : x.abs < 19 / 2
  · rw [if_pos h1]
    have hr := round_half_even_le_add_half (x.abs * 10 ^ p) hy
    have hlt : ((round_half_even (x.abs * 10 ^ p) : ℕ) : ℚ) < ((10 * 10 ^ p : ℕ) : ℚ) := by
      push_cast
      nlinarith
    have hlt' : round_half_even (x.abs * 10 ^ p) < 10 * 10 ^ p := by exact_mod_cast hlt
    have hq : round_half_even (x.abs * 10 ^ p) / 10 ^ p < 10 := by
      rw [Nat.div_lt_iff_lt_mul (by positivity)]
      exact hlt'
    rw [textual_representation_length_small 10 false _ hq]
  · rw [if_neg h1, if_pos hx]
    have hc0 : 0 ≤ ⌈x.abs⌉ := Int.ceil_nonneg h0
    have hcn : ((⌈x.abs⌉.toNat : ℕ) : ℤ) = ⌈x.abs⌉ := Int.toNat_of_nonneg hc0
    have hcq : ((⌈x.abs⌉.toNat : ℕ) : ℚ) = ((⌈x.abs⌉ : ℤ) : ℚ) := by
      rw [← Int.cast_natCast, hcn]
    have hle : x.abs ≤ ((⌈x.abs⌉.toNat : ℕ) : ℚ) := by rw [hcq]; exact Int.le_ceil x.abs
    have hcb : ⌈x.abs⌉ ≤ 9000000000000000000 := by
      apply Int.ceil_le.mpr
      push_cast
      linarith
    have hsmall : ⌈x.abs⌉.toNat < 2 ^ 64 := by omega
    rw [Nat.mod_eq_of_lt hsmall, ndigits_dec_eq false]
    apply textual_representation_length_mono 10 false (by omega)
    apply Nat.div_le_of_le_mul
    apply round_half_even_le_of_le _ hy
    push_cast
    rw [mul_comm]
    exact mul_le_mul_of_nonneg_left hle (by positivity)

/-- C15: for every symbol `c`, width up to 999, precision up to 99 and flags,
`float_cfmt_impl` ends without a failed assertion, returns the buffer it was given, and
has stored there: `%`, then `+` if show-positive, then (for a width above 0 only) the flag
`-` if left-justify, else `0` if zero-pad, else none, and the decimal digits of the width,
then `.`, the decimal digits of the precision, `c`, and the terminator. -/
theorem C15_float_cfmt (buf : Buf) (b fsym width prec : Nat) (left showpos padzeros : Bool)
    (hw : width ≤ 999) (hp : prec ≤ 99) :
    ∃ out, float_cfmt_impl buf b fsym width prec left showpos padzeros = some (b, out) ∧
      out.slice b ((cfmt_text fsym width prec left showpos padzeros).length + 1)
        = [37] ++ (if showpos then [43] else [])
          ++ (if width > 0 then
                (if left then [45] else if padzeros then [48] else [])
                  ++ textual_representation 10 false width
              else [])
          ++ [46] ++ textual_representation 10 false prec ++ [fsym] ++ [0] := by
  obtain ⟨out, h, hs, _⟩ :=
    float_cfmt_impl_body_spec buf b fsym width prec left showpos padzeros hw hp
  refine ⟨out, ?_, hs⟩
  unfold float_cfmt_impl
  rw [h]
  rfl

/-- C15, at the example: the symbol `f`, width 10, precision 3, zero-pad and show-positive
give `%+010.3f`. -/
theorem C15_float_cfmt_witness :
    ∃ out, float_cfmt_impl (fun _ => 1) 0 102 10 3 false true true = some (0, out) ∧
      out.slice 0 9 = codes "%+010.3f" ++ [0] := by
  obtain ⟨out, h, hs⟩ := C15_float_cfmt (fun _ => 1) 0 102 10 3 false true true
    (by decide) (by decide)
  refine ⟨out, h, ?_⟩
  have hl : (cfmt_text 102 10 3 false true true).length + 1 = 9 := by
    simp [cfmt_text, textual_representation]
  rw [hl] at hs
  rw [hs]
  simp [textual_representation, digit_char, codes]

/-- C16 (as stated, refuted): with the symbol `f`, width 100, precision 10, left-justify
and show-positive, `float_cfmt_impl` stores the 11 characters of `%+-100.10f` and the
terminator, one more than 10. -/
theorem C16_float_cfmt_eleven :
    float_cfmt_impl_count (fun _ => 1) 0 102 100 10 true true false = some 11 ∧
    (float_cfmt_impl (fun _ => 1) 0 102 100 10 true true false).map (fun r => r.2.slice 0 11)
      = some (codes "%+-100.10f" ++ [0]) ∧
    ¬ (11 ≤ 10) := by
  decide

/-- C16 (amended): for every symbol, width up to 999, precision up to 99 and flags, the
number of characters `float_cfmt_impl` stores, the terminator included, is at most 11:
1 (`%`), 1 (sign flag), 1 (width flag), 3 (width digits), 1 (`.`), 2 (precision digits),
1 (symbol), 1 (terminator); nothing is stored outside these 11 positions. -/
theorem C16_float_cfmt_length (buf : Buf) (b fsym width prec : Nat)
    (left showpos padzeros : Bool) (hw : width ≤ 999) (hp : prec ≤ 99) :
    ∃ n out, float_cfmt_impl_count buf b fsym width prec left showpos padzeros = some n ∧
      n ≤ 11 ∧
      float_cfmt_impl buf b fsym width prec left showpos padzeros = some (b, out) ∧
      ∀ j, (j < b ∨ b + 11 ≤ j) → out j = buf j := by
  obtain ⟨out, h, _, hu⟩ :=
    float_cfmt_impl_body_spec buf b fsym width prec left showpos padzeros hw hp
  have hl := cfmt_text_length_le fsym width prec left showpos padzeros hw hp
  refine ⟨(cfmt_text fsym width prec left showpos padzeros).length + 1, out, ?_, by omega,
    ?_, fun j hj => hu j (by omega)⟩
  · unfold float_cfmt_impl_count
    rw [h]
    simp only [Option.map_some']
    congr 1
    omega
  · unfold float_cfmt_impl
    rw [h]
    rfl

/-- C16 (amended), at the longest specifier, `%+-100.10f`: 11 characters. -/
theorem C16_float_cfmt_length_witness :
    ∃ n out, float_cfmt_impl_count (fun _ => 1) 0 102 100 10 true true false = some n ∧
      n ≤ 11 ∧
      float_cfmt_impl (fun _ => 1) 0 102 100 10 true true false = some (0, out) ∧
      ∀ j, (j < 0 ∨ 0 + 11 ≤ j) → out j = (fun _ => 1) j :=
  C16_float_cfmt_length (fun _ => 1) 0 102 100 10 true true false (by decide) (by decide)

/-- C17: for every finite `x` with `|x| < 9e18`, every precision `p` from 0 to 17 and
either value of the show-positive flag, `maxfmtlength_fixed x p plus_sign` is at least
the length of the standard fixed-notation rendering of `x` rounded to `p` fractional
digits (the sign if any, the integer digits of the rounded value, and the point with `p`
digits when `p > 0`). -/
theorem C17_maxfmtlength_fixed (floor_log10 : ℚ → Nat) (x : Double) (p : Nat)
    (plus_sign : Bool) (h0 : 0 ≤ x.abs) (hx : x.abs < 9000000000000000000) (_hp : p ≤ 17) :
    (fixed_text x p plus_sign).length ≤ maxfmtlength_fixed floor_log10 x p plus_sign := by
  have h := fixed_integer_digits_le floor_log10 x p h0 hx
  rw [fixed_text_length]
  unfold maxfmtlength_fixed
  simp only []
  split_ifs at h ⊢ <;> omega

/-- C17, at the example: 9.96 with the precision 1 renders as `10.0`, and the bound is
at least 4. -/
theorem C17_maxfmtlength_fixed_witness :
    fixed_text ⟨false, 249 / 25⟩ 1 false = codes "10.0" ∧
    4 ≤ maxfmtlength_fixed (fun _ => 0) ⟨false, 249 / 25⟩ 1 false := by
  have h := C17_maxfmtlength_fixed (fun _ => 0) ⟨false, 249 / 25⟩ 1 false
    (by norm_num) (by norm_num) (by decide)
  have ht : fixed_text ⟨false, 249 / 25⟩ 1 false = codes "10.0" := by
    have e : Int.toNat 99 = 99 := rfl
    unfold fixed_text round_half_even
    norm_num [textual_representation, codes, digit_char, e]
    exact ⟨rfl, rfl, rfl, rfl⟩
  rw [ht] at h
  exact ⟨ht, h⟩

/-- C18 (as stated, refuted): `extract_digits_dec` of 5 with the digit count 3 passes its
assertion and stores one character only, the digit, at the index 2; the indices 0 and 1
keep what they held (here the code 1), and `buf[0..3)` is not the representation of 5. -/
theorem C18_extract_digits_short_value :
    (extract_digits_dec 5 (fun _ => 1) 0 3).map (fun out => out.slice 0 3) = some [1, 1, 53] ∧
    textual_representation 10 false 5 = [53] := by
  refine ⟨by decide, ?_⟩
  simp [textual_representation, digit_char]

/-- C18 (amended): for every magnitude `x` and digit count `n ≥ 1`, whenever the
final-digit assertion of `extract_digits_dec`, `extract_digits_oct` or `extract_digits_hex`
passes, `n` is at least the number `L` of digits of `x` in the base and exactly `L` digit
characters have been stored: `buf[n-L..n)` is the textual representation of `x`, the last
digit extracted standing at the index `n - L` (the index 0 when `n = L`), and every other
position is left as it was. -/
theorem C18_extract_digits_written (x n : Nat) (upper : Bool) (buf : Buf) (p : Nat)
    (hn : 1 ≤ n) :
    (∀ out, extract_digits_dec x buf p n = some out →
      ndigits_dec x ≤ n ∧
      out.slice (p + (n - ndigits_dec x)) (ndigits_dec x) = textual_representation 10 false x ∧
      ∀ j, (j < p + (n - ndigits_dec x) ∨ p + n ≤ j) → out j = buf j) ∧
    (∀ out, extract_digits_oct x buf p n = some out →
      ndigits_oct x ≤ n ∧
      out.slice (p + (n - ndigits_oct x)) (ndigits_oct x) = textual_representation 8 false x ∧
      ∀ j, (j < p + (n - ndigits_oct x) ∨ p + n ≤ j) → out j = buf j) ∧
    (∀ out, extract_digits_hex x upper buf p n = some out →
      ndigits_hex x ≤ n ∧
      out.slice (p + (n - ndigits_hex x)) (ndigits_hex x)
        = textual_representation 16 upper x ∧
      ∀ j, (j < p + (n - ndigits_hex x) ∨ p + n ≤ j) → out j = buf j) := by
  refine ⟨?_, ?_, ?_⟩
  · intro out h
    obtain ⟨g1, g2⟩ := extract_digits_dec_general x buf p n hn
    by_cases hl : ndigits_dec x ≤ n
    · obtain ⟨out2, h2, hs, hu⟩ := g2 hl
      rw [h] at h2
      cases h2
      exact ⟨hl, hs, hu⟩
    · rw [g1.mpr (by omega)] at h
      exact Option.noConfusion h
  · intro out h
    obtain ⟨g1, g2⟩ := extract_digits_oct_general x buf p n hn
    by_cases hl : ndigits_oct x ≤ n
    · obtain ⟨out2, h2, hs, hu⟩ := g2 hl
      rw [h] at h2
      cases h2
      exact ⟨hl, hs, hu⟩
    · rw [g1.mpr (by omega)] at h
      exact Option.noConfusion h
  · intro out h
    obtain ⟨g1, g2⟩ := extract_digits_hex_general x upper buf p n hn
    by_cases hl : ndigits_hex x ≤ n
    · obtain ⟨out2, h2, hs, hu⟩ := g2 hl
      rw [h] at h2
      cases h2
      exact ⟨hl, hs, hu⟩
    · rw [g1.mpr (by omega)] at h
      exact Option.noConfusion h

/-- C18 (amended), at 5 with the digit count 3: the digit is stored at the index 2 and
the indices 0 and 1 are left as they were. -/
theorem C18_extract_digits_written_witness :
    ∃ out, extract_digits_dec 5 (fun _ => 1) 0 3 = some out ∧
      out.slice 2 1 = [53] ∧ out 0 = 1 ∧ out 1 = 1 := by
  have hnd : ndigits_dec 5 = 1 := by simp [ndigits_dec, ndigits_dec_loop]
  obtain ⟨out, h, _⟩ := (extract_digits_dec_general 5 (fun _ => 1) 0 3 (by decide)).2
    (by rw [hnd]; decide)
  obtain ⟨_, hs, hu⟩ :=
    (C18_extract_digits_written 5 3 false (fun _ => 1) 0 (by decide)).1 out h
  rw [hnd] at hs hu
  refine ⟨out, h, ?_, hu 0 (by decide), hu 1 (by decide)⟩
  rw [show 2 = 0 + (3 - 1) from rfl, hs]
  simp [textual_representation, digit_char]

/-- C19: for each base 10, 8 and 16, every magnitude `x` and every digit count `n ≥ 1`,
the single-digit assertion at the end of the digit extractor of the base fails exactly
when `n` is smaller than the digit count of `x` in the base: the call aborts if
`n < ndigits x` and goes through if `n ≥ ndigits x`. -/
theorem C19_extract_digits_assert (x n : Nat) (upper : Bool) (buf : Buf) (p : Nat)
    (hn : 1 ≤ n) :
    (extract_digits_dec x buf p n = none ↔ n < ndigits_dec x) ∧
    (extract_digits_oct x buf p n = none ↔ n < ndigits_oct x) ∧
    (extract_digits_hex x upper buf p n = none ↔ n < ndigits_hex x) ∧
    (ndigits_dec x ≤ n → (extract_digits_dec x buf p n).isSome = true) ∧
    (ndigits_oct x ≤ n → (extract_digits_oct x buf p n).isSome = true) ∧
    (ndigits_hex x ≤ n → (extract_digits_hex x upper buf p n).isSome = true) := by
  obtain ⟨d1, d2⟩ := extract_digits_dec_general x buf p n hn
  obtain ⟨o1, o2⟩ := extract_digits_oct_general x buf p n hn
  obtain ⟨x1, x2⟩ := extract_digits_hex_general x upper buf p n hn
  refine ⟨d1, o1, x1, ?_, ?_, ?_⟩
  · intro hl
    obtain ⟨out, h, _⟩ := d2 hl
    rw [h]; rfl
  · intro hl
    obtain ⟨out, h, _⟩ := o2 hl
    rw [h]; rfl
  · intro hl
    obtain ⟨out, h, _⟩ := x2 hl
    rw [h]; rfl

/-- C19, at 123 in base 10: the assertion fails with the digit count 2 and passes with
the digit count 3. -/
theorem C19_extract_digits_assert_witness :
    extract_digits_dec 123 (fun _ => 1) 0 2 = none ∧
    (extract_digits_dec 123 (fun _ => 1) 0 3).isSome = true := by
  have hnd : ndigits_dec 123 = 3 := by simp [ndigits_dec, ndigits_dec_loop]
  have h2 := C19_extract_digits_assert 123 2 false (fun _ => 1) 0 (by decide)
  have h3 := C19_extract_digits_assert 123 3 false (fun _ => 1) 0 (by decide)
  rw [hnd] at h2 h3
  exact ⟨h2.1.mpr (by decide), h3.2.2.2.1 (by decide)⟩

end clue
